import Mathlib

/-!
Shallow embedding of `dp_accounting/rdp/rdp_privacy_accountant.py` (RDP privacy
accountant) and verification of its specification claims.

Modelling conventions:
* IEEE doubles are modelled by exact extended reals (`EReal`), with the IEEE
  special values plus/minus infinity mapped to the poles of `EReal`; quantities
  that the source keeps finite are plain `ℝ`.
* Python functions that can raise are embedded as `Except String`-valued
  functions; the error string names the Python exception.
* The in-place mutation of the accountant's rdp vector is embedded by
  explicit state passing: `_maybe_compose` receives and returns an
  `Accountant` value.
* Python floating point is replaced by exact real arithmetic, so the
  `OverflowError` fallback of `_log_sub` and the underflow fallback of
  `_log_erfc` are dead branches in the embedding; `math.log` and real
  division are modelled by Mathlib's total junk-valued `Real.log` and
  division on branches the source can only reach with arguments outside the
  mathematical domain (where Python would raise); no claim below depends on
  such a branch.
-/

open scoped Classical

noncomputable section

/-- Neighboring relations, from `privacy_accountant.NeighboringRelation`. -/
inductive NeighboringRelation where
  | ADD_OR_REMOVE_ONE
  | REPLACE_ONE
  | REPLACE_SPECIAL
deriving DecidableEq

/-- The DP event expression tree, from `dp_event.py` (one constructor per
`DpEvent` subclass dispatched on by the accountant). -/
inductive DpEvent where
  | NoOp
  | NonPrivate
  | Gaussian (noise_multiplier : ℝ)
  | PoissonSampled (sampling_probability : ℝ) (event : DpEvent)
  | SampledWithoutReplacement (sample_size : ℕ) (source_dataset_size : ℕ) (event : DpEvent)
  | SelfComposed (event : DpEvent) (count : ℕ)
  | Composed (events : List DpEvent)
  | SingleEpochTreeAggregation (noise_multiplier : ℝ) (step_counts : List ℤ)
  | Unsupported

/-- Accountant state: order grid, accumulated rdp vector, neighboring
relation (`RdpAccountant.__init__`). -/
structure Accountant where
  orders : List ℝ
  rdp : List EReal
  neighboring_relation : NeighboringRelation

/-- Extension of `Real.exp` to `EReal` following the IEEE limits
(`exp(-inf) = 0`, `exp(inf) = inf`). -/
def expE (x : EReal) : EReal :=
  if x = ⊥ then ((0 : ℝ) : EReal)
  else if x = ⊤ then ⊤
  else ((Real.exp x.toReal : ℝ) : EReal)

/-- Extension of `expm1` to `EReal` following the IEEE limits
(`expm1(-inf) = -1`, `expm1(inf) = inf`). -/
def expm1E (x : EReal) : EReal :=
  if x = ⊥ then ((-1 : ℝ) : EReal)
  else if x = ⊤ then ⊤
  else ((Real.exp x.toReal - 1 : ℝ) : EReal)

/-- Python float division by a (nonzero) real scalar, applied to an `EReal`. -/
def divRealE (x : EReal) (c : ℝ) : EReal := x * ((c⁻¹ : ℝ) : EReal)

/-- Embeds `_log_add(logx, logy)`: adds two numbers in the log space. -/
def _log_add (logx logy : EReal) : EReal :=
  let a := min logx logy
  let b := max logx logy
  if a = ⊥ then b
  else if b = ⊤ then ⊤
  else ((Real.log (1 + Real.exp (a.toReal - b.toReal)) + b.toReal : ℝ) : EReal)

/-- Embeds `_log_sub(logx, logy)`: subtracts two numbers in the log space;
raises `ValueError` when the result would be negative.  In exact arithmetic
`expm1` never overflows, so the `OverflowError` fallback of the source is a
dead branch here. -/
def _log_sub (logx logy : EReal) : Except String EReal :=
  if logx < logy then .error "ValueError: The result of subtraction must be non-negative."
  else if logy = ⊥ then .ok logx
  else if logx = logy then .ok ⊥
  else if logx = ⊤ then .ok ⊤
  else .ok ((Real.log (Real.exp (logx.toReal - logy.toReal) - 1) + logy.toReal : ℝ) : EReal)

/-- Embeds `_log_sub_sign(logx, logy)`: signed log-space subtraction. -/
def _log_sub_sign (logx logy : EReal) : Bool × EReal :=
  if logy < logx then
    (true, if logx = ⊤ then ⊤ else logx + ((Real.log (1 - Real.exp ((logy - logx).toReal)) : ℝ) : EReal))
  else if logx < logy then
    (false, if logy = ⊤ then ⊤ else logy + ((Real.log (1 - Real.exp ((logx - logy).toReal)) : ℝ) : EReal))
  else (true, ⊥)

/-- Embeds `_log_comb(n, k)`; `scipy.special.gammaln` is the log of the
absolute value of the Gamma function. -/
def _log_comb (n k : ℝ) : ℝ :=
  Real.log |Real.Gamma (n + 1)| - Real.log |Real.Gamma (k + 1)| -
    Real.log |Real.Gamma (n - k + 1)|

/-- Standard normal lower-tail probability (`scipy.special.ndtr`). -/
def ndtr (x : ℝ) : ℝ :=
  (∫ t in Set.Iic x, Real.exp (-(t ^ 2) / 2)) / Real.sqrt (2 * Real.pi)

/-- Embeds `_log_erfc(x)`.  The source's primary branch
`log(2) + log_ndtr(-x * 2**.5)` is exact here, so the asymptotic fallback
used when float `erfc` underflows is a dead branch. -/
def _log_erfc (x : ℝ) : ℝ :=
  Real.log 2 + Real.log (ndtr (-x * Real.sqrt 2))

/-- Embeds `_compute_delta`'s per-order KL-divergence bound in log space:
`-inf` when the rdp is zero, else `0.5 * log1p(-exp(-rdp))` with the IEEE
limit value `0` at `rdp = inf`. -/
def kl_logdelta (r : EReal) : EReal :=
  if r = 0 then ⊥
  else if r = ⊤ then ((0 : ℝ) : EReal)
  else ((0.5 * Real.log (1 - Real.exp (-r.toReal)) : ℝ) : EReal)

/-- Embeds the per-order body of the loop of `_compute_delta`: the minimum of
the KL bound and (for orders above 1.01) the improved rdp bound. -/
def delta_val (a : ℝ) (r : EReal) (epsilon : EReal) : EReal :=
  let logdelta := kl_logdelta r
  if 1.01 < a then
    min logdelta (((a - 1 : ℝ) : EReal) * (r - epsilon + ((Real.log (1 - 1 / a) : ℝ) : EReal)) - ((Real.log a : ℝ) : EReal))
  else logdelta

/-- Embeds the per-order checks of the loop of `_compute_delta`. -/
def delta_order (a : ℝ) (r : EReal) (epsilon : EReal) : Except String EReal :=
  if a < 1 then .error "ValueError: Renyi divergence order must be at least 1."
  else if r < 0 then .error "ValueError: Renyi divergence cannot be negative."
  else .ok (delta_val a r epsilon)

/-- Minimum of a nonempty collection given as head and tail (`np.min`). -/
def listMin (x : EReal) (xs : List EReal) : EReal := xs.foldl min x

/-- Embeds `_compute_delta(orders, rdp, epsilon)`. -/
def _compute_delta (orders : List ℝ) (rdp : List EReal) (epsilon : EReal) :
    Except String EReal :=
  if epsilon < 0 then .error "ValueError: Epsilon cannot be negative."
  else if orders.length ≠ rdp.length then .error "ValueError: Input lists must have the same length."
  else do
    let logdeltas ← (orders.zip rdp).mapM fun p => delta_order p.1 p.2 epsilon
    match logdeltas with
    | [] => .error "ValueError: zero-size array to reduction operation minimum"
    | x :: xs => .ok (min (expE (listMin x xs)) ((1 : ℝ) : EReal))

/-- Embeds the per-order value of the loop of `_compute_epsilon`: zero when
the KL bound already certifies the target delta, the improved rdp bound for
orders above 1.01, infinity otherwise. -/
def eps_val (a : ℝ) (r : EReal) (delta : ℝ) : EReal :=
  if (0 : EReal) < ((delta ^ 2 : ℝ) : EReal) + expm1E (-r) then ((0 : ℝ) : EReal)
  else if 1.01 < a then
    r + ((Real.log (1 - 1 / a) : ℝ) : EReal) - ((Real.log (delta * a) / (a - 1) : ℝ) : EReal)
  else ⊤

/-- Embeds the per-order checks of the loop of `_compute_epsilon`. -/
def eps_order (a : ℝ) (r : EReal) (delta : ℝ) : Except String EReal :=
  if a < 1 then .error "ValueError: Renyi divergence order must be at least 1."
  else if r < 0 then .error "ValueError: Renyi divergence cannot be negative."
  else .ok (eps_val a r delta)

/-- Embeds `_compute_epsilon(orders, rdp, delta)`. -/
def _compute_epsilon (orders : List ℝ) (rdp : List EReal) (delta : ℝ) :
    Except String EReal :=
  if delta < 0 then .error "ValueError: Delta cannot be negative."
  else if delta = 0 then
    (if ∀ r ∈ rdp, r = 0 then .ok ((0 : ℝ) : EReal) else .ok ⊤)
  else if orders.length ≠ rdp.length then .error "ValueError: Input lists must have the same length."
  else do
    let eps ← (orders.zip rdp).mapM fun p => eps_order p.1 p.2 delta
    match eps with
    | [] => .error "ValueError: zero-size array to reduction operation minimum"
    | x :: xs => .ok (max ((0 : ℝ) : EReal) (listMin x xs))

/-- Embeds `_compute_log_a_int(q, sigma, alpha)`: the exact finite binomial
sum for integer order, accumulated with `_log_add` starting from log-space
zero, with the source's final `float()` cast rendered by `EReal.toReal`. -/
def _compute_log_a_int (q sigma : ℝ) (alpha : ℕ) : ℝ :=
  ((List.range (alpha + 1)).foldl
    (fun log_a i =>
      _log_add log_a
        (((_log_comb alpha i + i * Real.log q + ((alpha : ℝ) - i) * Real.log (1 - q)
            + ((i : ℝ) ^ 2 - i) / (2 * sigma ^ 2) : ℝ) : EReal)))
    ⊥).toReal

/-- Generalized binomial coefficient of a real by a natural
(`scipy.special.binom`). -/
def realBinom (alpha : ℝ) (i : ℕ) : ℝ :=
  (∏ j ∈ Finset.range i, (alpha - j)) / (Nat.factorial i)

/-- Iteration bound for the series loop of `_compute_log_a_frac`; the source
loop terminates by convergence of the series terms below `exp(-30)`, the
fuel is an artifact of the embedding. -/
def series_fuel : ℕ := 100000000

/-- Embeds the do-until loop of `_compute_log_a_frac`.  The state is the
term index `i` and the two signed log-space accumulators. -/
def _compute_log_a_frac_loop (q sigma alpha z0 : ℝ) :
    ℕ → ℕ → EReal → EReal → Except String EReal
  | 0, _, _, _ => .error "fuel exhausted (the source loop terminates by series convergence)"
  | fuel + 1, i, log_a0, log_a1 =>
    let coef := realBinom alpha i
    let log_coef := Real.log |coef|
    let j := alpha - i
    let log_t0 := log_coef + i * Real.log q + j * Real.log (1 - q)
    let log_t1 := log_coef + j * Real.log q + i * Real.log (1 - q)
    let log_e0 := Real.log 0.5 + _log_erfc ((i - z0) / (Real.sqrt 2 * sigma))
    let log_e1 := Real.log 0.5 + _log_erfc ((z0 - j) / (Real.sqrt 2 * sigma))
    let log_s0 := log_t0 + ((i : ℝ) ^ 2 - i) / (2 * sigma ^ 2) + log_e0
    let log_s1 := log_t1 + (j ^ 2 - j) / (2 * sigma ^ 2) + log_e1
    do
      let p : EReal × EReal ←
        if 0 < coef then
          .ok (_log_add log_a0 ((log_s0 : ℝ) : EReal), _log_add log_a1 ((log_s1 : ℝ) : EReal))
        else do
          let a0 ← _log_sub log_a0 ((log_s0 : ℝ) : EReal)
          let a1 ← _log_sub log_a1 ((log_s1 : ℝ) : EReal)
          pure (a0, a1)
      if max log_s0 log_s1 < -30 then .ok (_log_add p.1 p.2)
      else _compute_log_a_frac_loop q sigma alpha z0 fuel (i + 1) p.1 p.2

/-- Embeds `_compute_log_a_frac(q, sigma, alpha)`. -/
def _compute_log_a_frac (q sigma alpha : ℝ) : Except String EReal :=
  _compute_log_a_frac_loop q sigma alpha (sigma ^ 2 * Real.log (1 / q - 1) + 0.5)
    series_fuel 0 ⊥ ⊥

/-- Embeds `_compute_log_a(q, noise_multiplier, alpha)`: dispatch on
`float(alpha).is_integer()`. -/
def _compute_log_a (q noise_multiplier alpha : ℝ) : Except String EReal :=
  if ∃ n : ℤ, alpha = (n : ℝ) then
    .ok (((_compute_log_a_int q noise_multiplier ⌊alpha⌋.toNat : ℝ) : EReal))
  else _compute_log_a_frac q noise_multiplier alpha

/-- Embeds the closure `compute_one_order(q, alpha)` of
`_compute_rdp_poisson_subsampled_gaussian`, with the captured
`noise_multiplier` made explicit and `alpha` ranging over the extended reals
(`np.isinf` is the test for either pole). -/
def compute_one_order (noise_multiplier : ℝ) (q : ℝ) (alpha : EReal) :
    Except String EReal :=
  if alpha = ⊤ ∨ alpha = ⊥ ∨ noise_multiplier = 0 then .ok ⊤
  else if q = 0 then .ok ((0 : ℝ) : EReal)
  else if q = 1 then .ok ((alpha.toReal / (2 * noise_multiplier ^ 2) : ℝ) : EReal)
  else (_compute_log_a q noise_multiplier alpha.toReal).map
    fun log_a => divRealE log_a (alpha.toReal - 1)

/-- Embeds `_compute_rdp_poisson_subsampled_gaussian(q, noise_multiplier,
orders)`. -/
def _compute_rdp_poisson_subsampled_gaussian (q noise_multiplier : ℝ)
    (orders : List ℝ) : Except String (List EReal) :=
  orders.mapM fun a => compute_one_order noise_multiplier q ((a : ℝ) : EReal)

/-- Embeds the in-place pairwise reduction body of
`_stable_inplace_diff_in_log` at positions `j` and `j+1` (entries are
(log-magnitude, sign) pairs). -/
def diff_combine (x y : EReal × Bool) : EReal × Bool :=
  if x.2 = y.2 then
    let sm := _log_sub_sign y.1 x.1
    (sm.2, if !y.2 then !sm.1 else sm.1)
  else (_log_add x.1 y.1, y.2)

/-- Embeds one call of `_stable_inplace_diff_in_log(vec, signs, n)`: the
first `n` positions are replaced by the combination of adjacent pairs, the
tail is kept. -/
def _stable_inplace_diff_in_log (vec : List (EReal × Bool)) (n : ℕ) :
    List (EReal × Bool) :=
  (List.zipWith diff_combine (vec.take n) (vec.drop 1)) ++ vec.drop n

/-- Embeds the collection loop of `_get_forward_diffs`: `steps` further
reduction passes with shrinking window `w`, collecting the leading entry
after each pass. -/
def forward_diffs_loop : ℕ → ℕ → List (EReal × Bool) → List (EReal × Bool)
  | 0, _, _ => []
  | steps + 1, w, vec =>
    let vec2 := _stable_inplace_diff_in_log vec w
    vec2.headD (⊥, true) :: forward_diffs_loop steps (w - 1) vec2

/-- Embeds `_get_forward_diffs(fun, n)`: log-magnitudes and signs of the
first `n+2` forward differences of `fun` at 0 (the leading vector slot is
the float zero left by `np.zeros`). -/
def _get_forward_diffs (fn : ℝ → ℝ) (n : ℕ) : List EReal × List Bool :=
  let func_vec : List (EReal × Bool) :=
    (((0 : ℝ) : EReal), true) :: (List.range (n + 2)).map fun i => (((fn i : ℝ) : EReal), true)
  let collected := forward_diffs_loop (n + 2) (n + 2) func_vec
  (collected.map Prod.fst, collected.map Prod.snd)

/-- Embeds `_compute_rdp_sample_wor_gaussian_int(q, sigma, alpha)`: the
log-space accumulation of Theorem 27 terms, exactly (with forward
differences) up to order 256 and with the Stirling-style bound above. -/
def _compute_rdp_sample_wor_gaussian_int (q sigma : ℝ) (alpha : ℕ) : EReal :=
  if alpha = 1 then ((0 : ℝ) : EReal)
  else
    let cgf : ℝ → ℝ := fun x => x * (x + 1) / (2 * sigma ^ 2)
    let func : ℝ → ℝ := fun x => x / (2 * sigma ^ 2)
    let log_f2m1 : ℝ := func 2 + Real.log (1 - Real.exp (-(func 2)))
    if alpha ≤ 256 then
      let deltas := (_get_forward_diffs cgf alpha).1
      (List.range' 2 (alpha - 1)).foldl
        (fun log_a i =>
          let s : EReal :=
            if i = 2 then
              (((2 * Real.log q + _log_comb alpha 2 +
                  min (Real.log 4 + log_f2m1) (func 2 + Real.log 2) : ℝ) : EReal))
            else
              let delta_lo := deltas.getD (2 * (i / 2) - 1) ⊥
              let delta_hi := deltas.getD (2 * ((i + 1) / 2) - 1) ⊥
              min (((Real.log 4 : ℝ) : EReal) + ((0.5 : ℝ) : EReal) * (delta_lo + delta_hi))
                  (((Real.log 2 + cgf ((i : ℝ) - 1) : ℝ) : EReal))
                + (((i : ℝ) * Real.log q + _log_comb alpha i : ℝ) : EReal)
          _log_add log_a s)
        ((0 : ℝ) : EReal)
    else
      (List.range' 2 (alpha - 1)).foldl
        (fun log_a i =>
          let s : ℝ :=
            if i = 2 then
              2 * Real.log q + _log_comb alpha 2 +
                min (Real.log 4 + log_f2m1) (func 2 + Real.log 2)
            else
              Real.log 2 + cgf ((i : ℝ) - 1) + (i : ℝ) * Real.log q + _log_comb alpha i
          _log_add log_a ((s : ℝ) : EReal))
        ((0 : ℝ) : EReal)

/-- Embeds `_compute_rdp_sample_wor_gaussian_scalar(q, sigma, alpha)`; the
leading Python `assert` is modelled as a raise. -/
def _compute_rdp_sample_wor_gaussian_scalar (q sigma : ℝ) (alpha : EReal) :
    Except String EReal :=
  if ¬(q ≤ 1 ∧ 0 ≤ q ∧ (1 : EReal) ≤ alpha) then .error "AssertionError"
  else if q = 0 then .ok ((0 : ℝ) : EReal)
  else if q = 1 then .ok (divRealE alpha (2 * sigma ^ 2))
  else if alpha = ⊤ ∨ alpha = ⊥ then .ok ⊤
  else if ∃ n : ℤ, alpha.toReal = (n : ℝ) then
    .ok (divRealE (_compute_rdp_sample_wor_gaussian_int q sigma ⌊alpha.toReal⌋.toNat)
      (alpha.toReal - 1))
  else
    let alpha_f := ⌊alpha.toReal⌋
    let x := _compute_rdp_sample_wor_gaussian_int q sigma alpha_f.toNat
    let y := _compute_rdp_sample_wor_gaussian_int q sigma ⌈alpha.toReal⌉.toNat
    let t := alpha.toReal - alpha_f
    .ok (divRealE ((((1 - t : ℝ)) : EReal) * x + ((t : ℝ) : EReal) * y) (alpha.toReal - 1))

/-- Embeds `_compute_rdp_sample_wor_gaussian(q, noise_multiplier, orders)`. -/
def _compute_rdp_sample_wor_gaussian (q noise_multiplier : ℝ)
    (orders : List ℝ) : Except String (List EReal) :=
  orders.mapM fun a => _compute_rdp_sample_wor_gaussian_scalar q noise_multiplier ((a : ℝ) : EReal)

/-- Embeds `_compute_rdp_single_epoch_tree_aggregation(noise_multiplier,
step_counts, orders)`.  The source returns the scalar `np.inf` when the
noise multiplier is zero, which the caller's `+=` broadcasts over the rdp
vector; the embedding returns the broadcast vector directly. -/
def _compute_rdp_single_epoch_tree_aggregation (noise_multiplier : ℝ)
    (step_counts : List ℤ) (orders : List ℝ) : Except String (List EReal) :=
  if noise_multiplier < 0 then
    .error "ValueError: noise_multiplier must be non-negative."
  else if noise_multiplier = 0 then .ok (orders.map fun _ => ⊤)
  else if step_counts = [] then
    .error "ValueError: steps_list must be a non-empty list, or a non-zero scalar."
  else if ∃ steps ∈ step_counts, steps < 0 then
    .error "ValueError: Steps must be non-negative."
  else
    let depths := step_counts.map fun (steps : ℤ) => ⌈Real.logb 2 ((steps : ℝ) + 1)⌉
    let max_depth : ℤ := match depths with | [] => 0 | d :: ds => ds.foldl max d
    .ok (orders.map fun a => ((a * max_depth / (2 * noise_multiplier ^ 2) : ℝ) : EReal))

mutual

/-- Embeds `_effective_gaussian_noise_multiplier(event)` (together with
`egnm_sum` for the loop over a `Composed` node's children): `some` noise
multiplier on success, `none` when a leaf is not Gaussian, and a raised
`ZeroDivisionError` when Python would evaluate `0.0 ** -2` or `0.0 ** -0.5`. -/
def _effective_gaussian_noise_multiplier : DpEvent → Except String (Option ℝ)
  | .Gaussian noise_multiplier => .ok (some noise_multiplier)
  | .Composed events => do
    let s ← egnm_sum events
    match s with
    | none => .ok none
    | some sum_sigma_inv_sq =>
      if sum_sigma_inv_sq = 0 then
        .error "ZeroDivisionError: 0.0 cannot be raised to a negative power"
      else .ok (some (sum_sigma_inv_sq ^ (-0.5 : ℝ)))
  | .SelfComposed event count => do
    let s ← _effective_gaussian_noise_multiplier event
    match s with
    | none => .ok none
    | some sigma =>
      if sigma = 0 then
        .error "ZeroDivisionError: 0.0 cannot be raised to a negative power"
      else if (count : ℝ) * sigma ^ (-2 : ℤ) = 0 then
        .error "ZeroDivisionError: 0.0 cannot be raised to a negative power"
      else .ok (some (((count : ℝ) * sigma ^ (-2 : ℤ)) ^ (-0.5 : ℝ)))
  | _ => .ok none

def egnm_sum : List DpEvent → Except String (Option ℝ)
  | [] => .ok (some 0)
  | e :: es => do
    let s ← _effective_gaussian_noise_multiplier e
    match s with
    | none => .ok none
    | some sigma =>
      if sigma = 0 then
        .error "ZeroDivisionError: 0.0 cannot be raised to a negative power"
      else do
        let rest ← egnm_sum es
        match rest with
        | none => .ok none
        | some acc => .ok (some (sigma ^ (-2 : ℤ) + acc))

end

/-- Embeds `self._rdp += count * vector` on the rdp vector. -/
def addScaled (rdp v : List EReal) (count : ℕ) : List EReal :=
  List.zipWith (fun r x => r + ((count : ℝ) : EReal) * x) rdp v

mutual

/-- Embeds `RdpAccountant._maybe_compose(event, count, do_compose)` (together
with `_maybe_compose_all` for the short-circuiting `all(...)` over a
`Composed` node's children).  The boolean result reports supportability; the
returned accountant carries the (possibly) mutated rdp vector. -/
def _maybe_compose (acc : Accountant) (event : DpEvent) (count : ℕ)
    (do_compose : Bool) : Except String (Bool × Accountant) :=
  match event with
  | .NoOp => .ok (true, acc)
  | .NonPrivate =>
    if do_compose then .ok (true, { acc with rdp := acc.rdp.map (· + ⊤) })
    else .ok (true, acc)
  | .SelfComposed inner inner_count =>
    _maybe_compose acc inner (inner_count * count) do_compose
  | .Composed events => _maybe_compose_all acc events count do_compose
  | .Gaussian noise_multiplier =>
    if do_compose then do
      let v ← _compute_rdp_poisson_subsampled_gaussian 1 noise_multiplier acc.orders
      .ok (true, { acc with rdp := addScaled acc.rdp v count })
    else .ok (true, acc)
  | .PoissonSampled sampling_probability inner =>
    if acc.neighboring_relation ≠ .ADD_OR_REMOVE_ONE then .ok (false, acc)
    else do
      let gnm ← _effective_gaussian_noise_multiplier inner
      match gnm with
      | none => .ok (false, acc)
      | some gaussian_noise_multiplier =>
        if do_compose then do
          let v ← _compute_rdp_poisson_subsampled_gaussian sampling_probability
            gaussian_noise_multiplier acc.orders
          .ok (true, { acc with rdp := addScaled acc.rdp v count })
        else .ok (true, acc)
  | .SampledWithoutReplacement sample_size source_dataset_size inner =>
    if acc.neighboring_relation ≠ .REPLACE_ONE then .ok (false, acc)
    else do
      let gnm ← _effective_gaussian_noise_multiplier inner
      match gnm with
      | none => .ok (false, acc)
      | some gaussian_noise_multiplier =>
        if do_compose then do
          let v ← _compute_rdp_sample_wor_gaussian
            ((sample_size : ℝ) / (source_dataset_size : ℝ)) gaussian_noise_multiplier acc.orders
          .ok (true, { acc with rdp := addScaled acc.rdp v count })
        else .ok (true, acc)
  | .SingleEpochTreeAggregation noise_multiplier step_counts =>
    if acc.neighboring_relation ≠ .REPLACE_SPECIAL then .ok (false, acc)
    else if do_compose then do
      let v ← _compute_rdp_single_epoch_tree_aggregation noise_multiplier
        step_counts acc.orders
      .ok (true, { acc with rdp := addScaled acc.rdp v count })
    else .ok (true, acc)
  | .Unsupported => .ok (false, acc)

def _maybe_compose_all (acc : Accountant) (events : List DpEvent) (count : ℕ)
    (do_compose : Bool) : Except String (Bool × Accountant) :=
  match events with
  | [] => .ok (true, acc)
  | e :: es => do
    let r ← _maybe_compose acc e count do_compose
    if r.1 then _maybe_compose_all r.2 es count do_compose else .ok (false, r.2)

end

/-- Embeds `RdpAccountant.supports(event)`. -/
def supports (acc : Accountant) (event : DpEvent) : Except String Bool :=
  (_maybe_compose acc event 0 false).map Prod.fst

/-- Embeds `RdpAccountant._compose(event, count)`. -/
def _compose (acc : Accountant) (event : DpEvent) (count : ℕ) :
    Except String Accountant :=
  (_maybe_compose acc event count true).map Prod.snd

/-- Modelled from the spec: the public `compose(event, count)` entry point of
the shared accountant base class (`privacy_accountant.PrivacyAccountant`),
which is not among this repository's sources.  Per the spec, composition is
validate-then-commit: support is checked first without mutating state, an
unsupported event is reported as a boolean false with the accumulator left
completely unchanged, and only a fully supported event is committed via
`_compose`. -/
def compose (acc : Accountant) (event : DpEvent) (count : ℕ) :
    Except String (Bool × Accountant) := do
  let ok ← supports acc event
  if ok then do
    let acc2 ← _compose acc event count
    .ok (true, acc2)
  else .ok (false, acc)

/-- The default order grid of `RdpAccountant.__init__`. -/
def DEFAULT_RDP_ORDERS : List ℝ :=
  [2, 3, 4, 5, 6, 7, 8, 9, 10, 12, 14, 16, 20, 24, 28, 32, 48, 64, 128, 256, 512, 1024]

/-- Embeds `RdpAccountant.__init__(orders, neighboring_relation)`: the rdp
vector starts as zeros parallel to the order grid. -/
def RdpAccountant_init (orders : List ℝ)
    (neighboring_relation : NeighboringRelation) : Accountant :=
  { orders := orders
    rdp := orders.map fun _ => ((0 : ℝ) : EReal)
    neighboring_relation := neighboring_relation }

/-- Embeds `RdpAccountant.get_epsilon(target_delta)`. -/
def get_epsilon (acc : Accountant) (target_delta : ℝ) : Except String EReal :=
  _compute_epsilon acc.orders acc.rdp target_delta

/-- Embeds `RdpAccountant.get_delta(target_epsilon)`. -/
def get_delta (acc : Accountant) (target_epsilon : EReal) : Except String EReal :=
  _compute_delta acc.orders acc.rdp target_epsilon

/-- Calls `compose(event, 1)` a given number of times, threading the
accountant state. -/
def composeNTimes : ℕ → Accountant → DpEvent → Except String Accountant
  | 0, acc, _ => .ok acc
  | n + 1, acc, event => do
    let r ← compose acc event 1
    composeNTimes n r.2 event

end

/-! ### General list lemmas used by several claims -/

theorem mapM_ok_of_forall {α β : Type} (f : α → Except String β) (g : α → β) :
    ∀ l : List α, (∀ x ∈ l, f x = .ok (g x)) → l.mapM f = .ok (l.map g) := by
  intro l h
  induction l with
  | nil => rfl
  | cons a t ih =>
    rw [List.mapM_cons, h a (by simp), ih (fun x hx => h x (by simp [hx]))]
    rfl

theorem foldl_max_mem {α : Type} [LinearOrder α] (ds : List α) :
    ∀ d : α, ds.foldl max d = d ∨ ds.foldl max d ∈ ds := by
  induction ds with
  | nil => intro d; left; rfl
  | cons x t ih =>
    intro d
    simp only [List.foldl_cons]
    rcases ih (max d x) with h | h
    · rcases max_choice d x with hd | hx
      · left; rw [h, hd]
      · right; rw [h, hx]; exact List.mem_cons_self x t
    · right; exact List.mem_cons_of_mem x h

theorem le_foldl_max {α : Type} [LinearOrder α] (ds : List α) :
    ∀ d : α, d ≤ ds.foldl max d ∧ ∀ y ∈ ds, y ≤ ds.foldl max d := by
  induction ds with
  | nil => intro d; exact ⟨le_refl d, by simp⟩
  | cons x t ih =>
    intro d
    simp only [List.foldl_cons]
    refine ⟨le_trans (le_max_left d x) (ih (max d x)).1, ?_⟩
    intro y hy
    rcases List.mem_cons.1 hy with rfl | hyt
    · exact le_trans (le_max_right d y) (ih (max d y)).1
    · exact (ih (max d x)).2 y hyt

theorem foldl_min_mem {α : Type} [LinearOrder α] (ds : List α) :
    ∀ d : α, ds.foldl min d = d ∨ ds.foldl min d ∈ ds := by
  induction ds with
  | nil => intro d; left; rfl
  | cons x t ih =>
    intro d
    simp only [List.foldl_cons]
    rcases ih (min d x) with h | h
    · rcases min_choice d x with hd | hx
      · left; rw [h, hd]
      · right; rw [h, hx]; exact List.mem_cons_self x t
    · right; exact List.mem_cons_of_mem x h

theorem foldl_min_le {α : Type} [LinearOrder α] (ds : List α) :
    ∀ d : α, ds.foldl min d ≤ d ∧ ∀ y ∈ ds, ds.foldl min d ≤ y := by
  induction ds with
  | nil => intro d; exact ⟨le_refl d, by simp⟩
  | cons x t ih =>
    intro d
    simp only [List.foldl_cons]
    refine ⟨le_trans (ih (min d x)).1 (min_le_left d x), ?_⟩
    intro y hy
    rcases List.mem_cons.1 hy with rfl | hyt
    · exact le_trans (ih (min d y)).1 (min_le_right d y)
    · exact (ih (min d x)).2 y hyt

theorem listMin_mem (x : EReal) (xs : List EReal) :
    listMin x xs = x ∨ listMin x xs ∈ xs :=
  foldl_min_mem xs x

theorem listMin_le_head (x : EReal) (xs : List EReal) : listMin x xs ≤ x :=
  (foldl_min_le xs x).1

theorem listMin_le_mem (x : EReal) (xs : List EReal) :
    ∀ y ∈ xs, listMin x xs ≤ y :=
  (foldl_min_le xs x).2

/-! ### Reduction lemmas for the Except monad -/

@[simp] theorem except_bind_ok {α β : Type} (a : α) (f : α → Except String β) :
    (Except.ok a >>= f) = f a := rfl

@[simp] theorem except_bind_error {α β : Type} (msg : String)
    (f : α → Except String β) :
    ((Except.error msg : Except String α) >>= f) = .error msg := rfl

@[simp] theorem except_map_ok {α β : Type} (a : α) (f : α → β) :
    (Except.map f (Except.ok a) : Except String β) = .ok (f a) := rfl

@[simp] theorem except_map_error {α β : Type} (msg : String) (f : α → β) :
    (Except.map f (Except.error msg : Except String α) : Except String β) = .error msg := rfl

/-! ### C8: log_sub raises-iff and special values -/

/-- C8.  The log-space subtraction `_log_sub(a, b)` raises a domain error if
and only if `a < b`; when `a ≥ b` it returns `a` if `b = -inf`, `-inf` if
`a = b`, and otherwise `b + log(exp(a-b) - 1)`.  In the exact-arithmetic
embedding the `expm1` identity never overflows, so the source's
`OverflowError` fallback to `a` is a dead branch. -/
theorem log_sub_raises_iff (logx logy : EReal) :
    ((∃ msg, _log_sub logx logy = .error msg) ↔ logx < logy) ∧
    (logy = ⊥ → ¬logx < logy → _log_sub logx logy = .ok logx) ∧
    (logx = logy → _log_sub logx logy = .ok ⊥) ∧
    (∀ x y : ℝ, logx = (x : EReal) → logy = (y : EReal) → y < x →
      _log_sub logx logy = .ok ((Real.log (Real.exp (x - y) - 1) + y : ℝ) : EReal)) := by
  refine ⟨⟨?_, ?_⟩, ?_, ?_, ?_⟩
  · rintro ⟨msg, hmsg⟩
    by_contra h
    rw [_log_sub, if_neg h] at hmsg
    split_ifs at hmsg
  · intro h
    exact ⟨_, by rw [_log_sub, if_pos h]⟩
  · intro hb h
    rw [_log_sub, if_neg h, if_pos hb]
  · intro hxy
    by_cases hb : logy = ⊥
    · rw [_log_sub, if_neg (by rw [hxy]; exact lt_irrefl _), if_pos hb, hxy, hb]
    · rw [_log_sub, if_neg (by rw [hxy]; exact lt_irrefl _), if_neg hb, if_pos hxy]
  · intro x y hx hy hyx
    subst hx; subst hy
    have hlt : (y : EReal) < (x : EReal) := EReal.coe_lt_coe_iff.2 hyx
    rw [_log_sub, if_neg (not_lt.2 hlt.le), if_neg (EReal.coe_ne_bot y),
      if_neg hlt.ne.symm, if_neg (EReal.coe_ne_top x)]
    simp [EReal.toReal_coe]

/-- Witness for C8, at `a = 0`, `b = -inf`: the subtraction succeeds and
returns `a`. -/
theorem log_sub_raises_iff_witness :
    _log_sub ((0 : ℝ) : EReal) ⊥ = .ok ((0 : ℝ) : EReal) :=
  (log_sub_raises_iff ((0 : ℝ) : EReal) ⊥).2.1 rfl (by simp)

/-! ### C9: get_epsilon zero-delta branch -/

/-- C9.  `_compute_epsilon` raises for every negative target delta; at target
delta zero it returns 0 when every accumulated rdp value is 0 and infinity
when some rdp value is nonzero. -/
theorem epsilon_zero_delta_branch (orders : List ℝ) (rdp : List EReal)
    (target_delta : ℝ) :
    (target_delta < 0 → ∃ msg, _compute_epsilon orders rdp target_delta = .error msg) ∧
    (target_delta = 0 → (∀ r ∈ rdp, r = 0) →
      _compute_epsilon orders rdp target_delta = .ok ((0 : ℝ) : EReal)) ∧
    (target_delta = 0 → (∃ r ∈ rdp, r ≠ 0) →
      _compute_epsilon orders rdp target_delta = .ok ⊤) := by
  refine ⟨?_, ?_, ?_⟩
  · intro h
    exact ⟨_, by rw [_compute_epsilon, if_pos h]⟩
  · intro h hall
    rw [_compute_epsilon, if_neg (by rw [h]; exact lt_irrefl _), if_pos h, if_pos hall]
  · intro h hex
    have hnall : ¬∀ r ∈ rdp, r = 0 := by
      rcases hex with ⟨r, hr, hne⟩
      exact fun hall => hne (hall r hr)
    rw [_compute_epsilon, if_neg (by rw [h]; exact lt_irrefl _), if_pos h, if_neg hnall]

/-- Witness for C9, at a singleton state with nonzero rdp and target delta 0:
the returned epsilon is infinite. -/
theorem epsilon_zero_delta_branch_witness :
    _compute_epsilon [2] [((1 : ℝ) : EReal)] 0 = .ok ⊤ :=
  (epsilon_zero_delta_branch [2] [((1 : ℝ) : EReal)] 0).2.2 rfl
    ⟨((1 : ℝ) : EReal), by simp, by
      simp only [ne_eq, ← EReal.coe_zero, EReal.coe_eq_coe_iff]
      norm_num⟩


/-! ### C4: Poisson-subsampled Gaussian edge cases -/

/-- C4.  Edge-case precedence of the per-order Poisson-subsampled Gaussian
RDP: infinite order or zero noise gives infinity; otherwise zero sampling
probability gives zero; otherwise sampling probability one gives
`alpha / (2 sigma^2)` exactly. -/
theorem poisson_subsampled_gaussian_edge_cases (q noise_multiplier : ℝ)
    (alpha : EReal) (halpha : (1 : EReal) ≤ alpha) (hq0 : 0 ≤ q) (hq1 : q ≤ 1)
    (hsigma : 0 ≤ noise_multiplier) :
    (alpha = ⊤ ∨ noise_multiplier = 0 →
      compute_one_order noise_multiplier q alpha = .ok ⊤) ∧
    (alpha ≠ ⊤ → noise_multiplier ≠ 0 → q = 0 →
      compute_one_order noise_multiplier q alpha = .ok ((0 : ℝ) : EReal)) ∧
    (alpha ≠ ⊤ → noise_multiplier ≠ 0 → q ≠ 0 → q = 1 →
      compute_one_order noise_multiplier q alpha =
        .ok ((alpha.toReal / (2 * noise_multiplier ^ 2) : ℝ) : EReal)) := by
  have hbot : alpha ≠ ⊥ := by
    intro h
    rw [h] at halpha
    exact (EReal.bot_lt_coe 1).not_le halpha
  refine ⟨?_, ?_, ?_⟩
  · intro h
    rcases h with h | h
    · rw [compute_one_order, if_pos (Or.inl h)]
    · rw [compute_one_order, if_pos (Or.inr (Or.inr h))]
  · intro htop hnm hq
    rw [compute_one_order, if_neg (by push_neg; exact ⟨htop, hbot, hnm⟩), if_pos hq]
  · intro htop hnm hq hq'
    rw [compute_one_order, if_neg (by push_neg; exact ⟨htop, hbot, hnm⟩), if_neg hq,
      if_pos hq']

/-- Witness for C4, at order 2, sampling probability 1, noise multiplier 1:
the RDP is `2 / 2 = alpha / (2 sigma^2)` exactly. -/
theorem poisson_subsampled_gaussian_edge_cases_witness :
    compute_one_order 1 1 ((2 : ℝ) : EReal) =
      .ok ((((2 : ℝ) : EReal).toReal / (2 * 1 ^ 2) : ℝ) : EReal) :=
  (poisson_subsampled_gaussian_edge_cases 1 1 ((2 : ℝ) : EReal)
    (by exact_mod_cast (one_le_two : (1 : ℝ) ≤ 2)) (by norm_num) le_rfl
    (by norm_num)).2.2 (EReal.coe_ne_top 2) (by norm_num) (by norm_num) rfl

/-! ### C5: tree-aggregation RDP contract -/

/-- Counterexample to C5 as stated: with noise multiplier 0 and an empty
step-count collection, the source returns infinity instead of raising the
claimed invalid-argument error for the empty collection (the zero-noise
branch precedes the emptiness check). -/
theorem tree_aggregation_contract_counterexample :
    _compute_rdp_single_epoch_tree_aggregation 0 [] [2] = .ok [⊤] := by
  rw [_compute_rdp_single_epoch_tree_aggregation, if_neg (lt_irrefl 0), if_pos rfl]
  rfl

/-- C5 as amended: the zero-noise infinity branch takes precedence over the
empty and negative step-count checks.  `_compute_rdp_single_epoch_tree_aggregation`
raises when the noise multiplier is negative, or when it is positive and the
step-count collection is empty or contains a negative value; a zero noise
multiplier returns infinity at every order; otherwise every order `a` maps to
`a * D / (2 sigma^2)` where `D` is the maximum over the step counts of
`ceil(log2(steps + 1))`. -/
theorem tree_aggregation_contract (noise_multiplier : ℝ)
    (step_counts : List ℤ) (orders : List ℝ) :
    (noise_multiplier < 0 → ∃ msg,
      _compute_rdp_single_epoch_tree_aggregation noise_multiplier step_counts orders = .error msg) ∧
    (noise_multiplier = 0 →
      _compute_rdp_single_epoch_tree_aggregation noise_multiplier step_counts orders =
        .ok (orders.map fun _ => ⊤)) ∧
    (0 < noise_multiplier → step_counts = [] → ∃ msg,
      _compute_rdp_single_epoch_tree_aggregation noise_multiplier step_counts orders = .error msg) ∧
    (0 < noise_multiplier → (∃ s ∈ step_counts, s < 0) → ∃ msg,
      _compute_rdp_single_epoch_tree_aggregation noise_multiplier step_counts orders = .error msg) ∧
    (0 < noise_multiplier → step_counts ≠ [] → (∀ s ∈ step_counts, 0 ≤ s) →
      ∃ D : ℤ,
        D ∈ (step_counts.map fun (steps : ℤ) => ⌈Real.logb 2 ((steps : ℝ) + 1)⌉) ∧
        (∀ d ∈ (step_counts.map fun (steps : ℤ) => ⌈Real.logb 2 ((steps : ℝ) + 1)⌉), d ≤ D) ∧
        _compute_rdp_single_epoch_tree_aggregation noise_multiplier step_counts orders =
          .ok (orders.map fun a => ((a * D / (2 * noise_multiplier ^ 2) : ℝ) : EReal))) := by
  refine ⟨?_, ?_, ?_, ?_, ?_⟩
  · intro h
    exact ⟨_, by rw [_compute_rdp_single_epoch_tree_aggregation, if_pos h]⟩
  · intro h
    rw [_compute_rdp_single_epoch_tree_aggregation,
      if_neg (by rw [h]; exact lt_irrefl _), if_pos h]
  · intro hpos hempty
    exact ⟨_, by rw [_compute_rdp_single_epoch_tree_aggregation, if_neg (not_lt.2 hpos.le),
      if_neg hpos.ne', if_pos hempty]⟩
  · intro hpos hneg
    have hne : step_counts ≠ [] := by
      rcases hneg with ⟨s, hs, _⟩
      exact List.ne_nil_of_mem hs
    exact ⟨_, by rw [_compute_rdp_single_epoch_tree_aggregation, if_neg (not_lt.2 hpos.le),
      if_neg hpos.ne', if_neg hne, if_pos hneg]⟩
  · intro hpos hne hnn
    rcases step_counts with _ | ⟨s, ss⟩
    · exact absurd rfl hne
    refine ⟨(ss.map fun (steps : ℤ) => ⌈Real.logb 2 ((steps : ℝ) + 1)⌉).foldl max
      ⌈Real.logb 2 ((s : ℝ) + 1)⌉, ?_, ?_, ?_⟩
    · rcases foldl_max_mem (ss.map fun (steps : ℤ) => ⌈Real.logb 2 ((steps : ℝ) + 1)⌉)
        ⌈Real.logb 2 ((s : ℝ) + 1)⌉ with h | h
      · rw [h]; simp
      · simp only [List.map_cons, List.mem_cons]
        exact Or.inr h
    · intro d hd
      simp only [List.map_cons, List.mem_cons] at hd
      rcases hd with rfl | hd
      · exact (le_foldl_max _ _).1
      · exact (le_foldl_max _ _).2 d hd
    · rw [_compute_rdp_single_epoch_tree_aggregation, if_neg (not_lt.2 hpos.le),
        if_neg hpos.ne', if_neg (by simp), if_neg (by push_neg; exact hnn)]
      rfl

/-- Witness for C5, at noise multiplier 1, a single epoch of 1 step, order
grid `[2]`: the computed depth is `ceil(log2 2) = 1`. -/
theorem tree_aggregation_contract_witness :
    ∃ D : ℤ,
      D ∈ ([1].map fun steps : ℤ => ⌈Real.logb 2 ((steps : ℝ) + 1)⌉) ∧
      (∀ d ∈ ([1].map fun steps : ℤ => ⌈Real.logb 2 ((steps : ℝ) + 1)⌉), d ≤ D) ∧
      _compute_rdp_single_epoch_tree_aggregation 1 [1] [2] =
        .ok ([2].map fun a : ℝ => ((a * D / (2 * 1 ^ 2) : ℝ) : EReal)) :=
  (tree_aggregation_contract 1 [1] [2]).2.2.2.2 (by norm_num) (by simp)
    (by intro s hs; simp at hs; omega)

/-! ### C10: supports and compose are not total (ZeroDivisionError) -/

/-- C10.  The effective-Gaussian reduction raises a `ZeroDivisionError`
(instead of returning a boolean) when a zero-noise Gaussian leaf is nested
inside a `Composed` or `SelfComposed` structure under a sampling event with
the matching neighboring relation, or when an inner `Composed` has no
children, while a bare zero-noise Gaussian inner event is handled without
error. -/
theorem supports_zero_sigma_nested_raises (acc acc2 : Accountant) (p : ℝ)
    (m n k : ℕ)
    (hrel : acc.neighboring_relation = .ADD_OR_REMOVE_ONE)
    (hrel2 : acc2.neighboring_relation = .REPLACE_ONE) :
    (∃ msg, supports acc (.PoissonSampled p (.Composed [.Gaussian 0])) = .error msg) ∧
    (∃ msg, supports acc (.PoissonSampled p (.Composed [])) = .error msg) ∧
    (∃ msg, supports acc (.PoissonSampled p (.SelfComposed (.Gaussian 0) k)) = .error msg) ∧
    (∃ msg, supports acc2 (.SampledWithoutReplacement m n (.Composed [.Gaussian 0])) = .error msg) ∧
    (∃ msg, compose acc (.PoissonSampled p (.Composed [.Gaussian 0])) 1 = .error msg) ∧
    supports acc (.PoissonSampled p (.Gaussian 0)) = .ok true := by
  refine ⟨?_, ?_, ?_, ?_, ?_, ?_⟩
  · exact ⟨"ZeroDivisionError: 0.0 cannot be raised to a negative power",
      by simp [supports, _maybe_compose, _effective_gaussian_noise_multiplier,
        egnm_sum, hrel]⟩
  · exact ⟨"ZeroDivisionError: 0.0 cannot be raised to a negative power",
      by simp [supports, _maybe_compose, _effective_gaussian_noise_multiplier,
        egnm_sum, hrel]⟩
  · exact ⟨"ZeroDivisionError: 0.0 cannot be raised to a negative power",
      by simp [supports, _maybe_compose, _effective_gaussian_noise_multiplier, hrel]⟩
  · exact ⟨"ZeroDivisionError: 0.0 cannot be raised to a negative power",
      by simp [supports, _maybe_compose, _effective_gaussian_noise_multiplier,
        egnm_sum, hrel2]⟩
  · exact ⟨"ZeroDivisionError: 0.0 cannot be raised to a negative power",
      by simp [compose, supports, _maybe_compose,
        _effective_gaussian_noise_multiplier, egnm_sum, hrel]⟩
  · simp [supports, _maybe_compose, _effective_gaussian_noise_multiplier, hrel]

/-- Witness for C10 at a concrete accountant state and sampling probability. -/
theorem supports_zero_sigma_nested_raises_witness :
    (∃ msg, supports ⟨[2], [((0 : ℝ) : EReal)], .ADD_OR_REMOVE_ONE⟩
      (.PoissonSampled (1/2) (.Composed [.Gaussian 0])) = .error msg) ∧
    (∃ msg, supports ⟨[2], [((0 : ℝ) : EReal)], .ADD_OR_REMOVE_ONE⟩
      (.PoissonSampled (1/2) (.Composed [])) = .error msg) ∧
    (∃ msg, supports ⟨[2], [((0 : ℝ) : EReal)], .ADD_OR_REMOVE_ONE⟩
      (.PoissonSampled (1/2) (.SelfComposed (.Gaussian 0) 3)) = .error msg) ∧
    (∃ msg, supports ⟨[2], [((0 : ℝ) : EReal)], .REPLACE_ONE⟩
      (.SampledWithoutReplacement 1 2 (.Composed [.Gaussian 0])) = .error msg) ∧
    (∃ msg, compose ⟨[2], [((0 : ℝ) : EReal)], .ADD_OR_REMOVE_ONE⟩
      (.PoissonSampled (1/2) (.Composed [.Gaussian 0])) 1 = .error msg) ∧
    supports ⟨[2], [((0 : ℝ) : EReal)], .ADD_OR_REMOVE_ONE⟩
      (.PoissonSampled (1/2) (.Gaussian 0)) = .ok true :=
  supports_zero_sigma_nested_raises
    ⟨[2], [((0 : ℝ) : EReal)], .ADD_OR_REMOVE_ONE⟩
    ⟨[2], [((0 : ℝ) : EReal)], .REPLACE_ONE⟩ (1/2) 1 2 3 rfl rfl

/-! ### C1: all-or-nothing composition of a Composed event -/

mutual

/-- Check mode never mutates: with `do_compose = false`, `_maybe_compose`
either succeeds returning the accountant unchanged or raises. -/
theorem maybe_compose_check_pure (acc : Accountant) (event : DpEvent) (count : ℕ) :
    (∃ b, _maybe_compose acc event count false = .ok (b, acc)) ∨
    (∃ msg, _maybe_compose acc event count false = .error msg) := by
  cases event with
  | NoOp => exact Or.inl ⟨true, by simp [_maybe_compose]⟩
  | NonPrivate => exact Or.inl ⟨true, by simp [_maybe_compose]⟩
  | Gaussian noise_multiplier => exact Or.inl ⟨true, by simp [_maybe_compose]⟩
  | SelfComposed inner inner_count =>
    have h := maybe_compose_check_pure acc inner (inner_count * count)
    simpa [_maybe_compose] using h
  | Composed events =>
    have h := maybe_compose_all_check_pure acc events count
    simpa [_maybe_compose] using h
  | PoissonSampled sampling_probability inner =>
    by_cases hrel : acc.neighboring_relation = .ADD_OR_REMOVE_ONE
    · cases hgnm : _effective_gaussian_noise_multiplier inner with
      | error msg => exact Or.inr ⟨msg, by simp [_maybe_compose, hrel, hgnm]⟩
      | ok o =>
        cases o with
        | none => exact Or.inl ⟨false, by simp [_maybe_compose, hrel, hgnm]⟩
        | some sigma => exact Or.inl ⟨true, by simp [_maybe_compose, hrel, hgnm]⟩
    · exact Or.inl ⟨false, by simp [_maybe_compose, hrel]⟩
  | SampledWithoutReplacement sample_size source_dataset_size inner =>
    by_cases hrel : acc.neighboring_relation = .REPLACE_ONE
    · cases hgnm : _effective_gaussian_noise_multiplier inner with
      | error msg => exact Or.inr ⟨msg, by simp [_maybe_compose, hrel, hgnm]⟩
      | ok o =>
        cases o with
        | none => exact Or.inl ⟨false, by simp [_maybe_compose, hrel, hgnm]⟩
        | some sigma => exact Or.inl ⟨true, by simp [_maybe_compose, hrel, hgnm]⟩
    · exact Or.inl ⟨false, by simp [_maybe_compose, hrel]⟩
  | SingleEpochTreeAggregation noise_multiplier step_counts =>
    by_cases hrel : acc.neighboring_relation = .REPLACE_SPECIAL
    · exact Or.inl ⟨true, by simp [_maybe_compose, hrel]⟩
    · exact Or.inl ⟨false, by simp [_maybe_compose, hrel]⟩
  | Unsupported => exact Or.inl ⟨false, by simp [_maybe_compose]⟩

/-- Check mode never mutates, list version, for the traversal of a
`Composed` node's children. -/
theorem maybe_compose_all_check_pure (acc : Accountant) (events : List DpEvent)
    (count : ℕ) :
    (∃ b, _maybe_compose_all acc events count false = .ok (b, acc)) ∨
    (∃ msg, _maybe_compose_all acc events count false = .error msg) := by
  cases events with
  | nil => exact Or.inl ⟨true, by simp [_maybe_compose_all]⟩
  | cons e es =>
    rcases maybe_compose_check_pure acc e count with ⟨b, hb⟩ | ⟨msg, hmsg⟩
    · cases b with
      | false => exact Or.inl ⟨false, by simp [_maybe_compose_all, hb]⟩
      | true =>
        rcases maybe_compose_all_check_pure acc es count with ⟨b2, hb2⟩ | ⟨msg, hmsg⟩
        · exact Or.inl ⟨b2, by simp [_maybe_compose_all, hb, hb2]⟩
        · exact Or.inr ⟨msg, by simp [_maybe_compose_all, hb, hmsg]⟩
    · exact Or.inr ⟨msg, by simp [_maybe_compose_all, hmsg]⟩

end

/-- A `Composed` list with a child that checks as unsupported either reports
false with the accountant unchanged, or raises during the check traversal
(which also leaves the accountant unchanged). -/
theorem maybe_compose_all_unsupported_child (acc : Accountant)
    (events : List DpEvent) (count : ℕ)
    (h : ∃ e ∈ events, _maybe_compose acc e count false = .ok (false, acc)) :
    _maybe_compose_all acc events count false = .ok (false, acc) ∨
    (∃ msg, _maybe_compose_all acc events count false = .error msg) := by
  induction events with
  | nil =>
    rcases h with ⟨e, he, _⟩
    cases he
  | cons e0 es ih =>
    rcases maybe_compose_check_pure acc e0 count with ⟨b, hb⟩ | ⟨msg, hmsg⟩
    · cases b with
      | false => exact Or.inl (by simp [_maybe_compose_all, hb])
      | true =>
        have h2 : ∃ e ∈ es, _maybe_compose acc e count false = .ok (false, acc) := by
          rcases h with ⟨e, he, hsup⟩
          rcases List.mem_cons.1 he with rfl | hes
          · rw [hb] at hsup
            simp at hsup
          · exact ⟨e, hes, hsup⟩
        rcases ih h2 with hall | ⟨msg, hmsg⟩
        · exact Or.inl (by simp [_maybe_compose_all, hb, hall])
        · exact Or.inr ⟨msg, by simp [_maybe_compose_all, hb, hmsg]⟩
    · exact Or.inr ⟨msg, by simp [_maybe_compose_all, hmsg]⟩

/-- C1.  Composition of a `Composed` event is all-or-nothing: if any child is
unsupported, the public compose call on the `Composed` event never commits
any contribution — it either reports false with the accountant (hence the
accumulated rdp vector) completely unchanged, or raises during the
non-mutating support check, before any mutation.  The public `compose` is
the spec-modelled validate-then-commit wrapper. -/
theorem compose_composed_all_or_nothing (acc : Accountant)
    (events : List DpEvent) (count : ℕ)
    (h : ∃ e ∈ events, supports acc e = .ok false) :
    compose acc (.Composed events) count = .ok (false, acc) ∨
    ∃ msg, compose acc (.Composed events) count = .error msg := by
  have h2 : ∃ e ∈ events, _maybe_compose acc e 0 false = .ok (false, acc) := by
    rcases h with ⟨e, he, hsup⟩
    refine ⟨e, he, ?_⟩
    rcases maybe_compose_check_pure acc e 0 with ⟨b, hb⟩ | ⟨msg, hmsg⟩
    · rw [supports, hb] at hsup
      simp at hsup
      rw [hb, hsup]
    · rw [supports, hmsg] at hsup
      simp at hsup
  rcases maybe_compose_all_unsupported_child acc events 0 h2 with hall | ⟨msg, hmsg⟩
  · left
    simp [compose, supports, _maybe_compose, hall]
  · right
    exact ⟨msg, by simp [compose, supports, _maybe_compose, hmsg]⟩

/-- Witness for C1: composing a `Composed` list containing an `Unsupported`
child on a concrete accountant reports false and leaves the state unchanged. -/
theorem compose_composed_all_or_nothing_witness :
    compose ⟨[2], [((0 : ℝ) : EReal)], .ADD_OR_REMOVE_ONE⟩
        (.Composed [.Gaussian 1, .Unsupported]) 1 =
      .ok (false, ⟨[2], [((0 : ℝ) : EReal)], .ADD_OR_REMOVE_ONE⟩) ∨
    ∃ msg, compose ⟨[2], [((0 : ℝ) : EReal)], .ADD_OR_REMOVE_ONE⟩
        (.Composed [.Gaussian 1, .Unsupported]) 1 = .error msg :=
  compose_composed_all_or_nothing ⟨[2], [((0 : ℝ) : EReal)], .ADD_OR_REMOVE_ONE⟩
    [.Gaussian 1, .Unsupported] 1
    ⟨.Unsupported, by simp, by simp [supports, _maybe_compose]⟩

/-! ### C3: self-composition equivalence for Gaussian events -/

/-- The Poisson-subsampled Gaussian vector at sampling probability 1 (the
unsampled Gaussian mechanism): infinity at every order when the noise
multiplier is zero, else `a / (2 sigma^2)` at each order `a`. -/
theorem poisson_vector_q1 (noise_multiplier : ℝ) (orders : List ℝ) :
    _compute_rdp_poisson_subsampled_gaussian 1 noise_multiplier orders =
      .ok (orders.map fun a =>
        if noise_multiplier = 0 then (⊤ : EReal)
        else ((a / (2 * noise_multiplier ^ 2) : ℝ) : EReal)) := by
  apply mapM_ok_of_forall
  intro a _
  by_cases hnm : noise_multiplier = 0
  · simp [compute_one_order, hnm]
  · simp [compute_one_order, hnm, EReal.coe_ne_top, EReal.coe_ne_bot]

/-- Adding a zero-scaled vector is the identity (given compatible lengths). -/
theorem addScaled_zero (rdp : List EReal) :
    ∀ v : List EReal, rdp.length ≤ v.length → addScaled rdp v 0 = rdp := by
  induction rdp with
  | nil => intro v _; cases v <;> simp [addScaled]
  | cons r rs ih =>
    intro v hlen
    cases v with
    | nil => simp at hlen
    | cons x xs =>
      simp only [addScaled, List.zipWith_cons_cons] at *
      congr 1
      · simp
      · exact ih xs (by simpa using hlen)

/-- Two successive scaled additions of the same vector merge into one with
the summed count. -/
theorem addScaled_addScaled (rdp : List EReal) :
    ∀ (v : List EReal) (m n : ℕ),
    addScaled (addScaled rdp v m) v n = addScaled rdp v (m + n) := by
  induction rdp with
  | nil => intro v m n; cases v <;> simp [addScaled]
  | cons r rs ih =>
    intro v m n
    cases v with
    | nil => simp [addScaled]
    | cons x xs =>
      simp only [addScaled, List.zipWith_cons_cons]
      congr 1
      · rw [add_assoc]
        congr 1
        rw [show (((m + n : ℕ) : ℝ) : EReal) = ((m : ℝ) : EReal) + ((n : ℝ) : EReal) by
          norm_cast]
        exact (EReal.right_distrib_of_nonneg
          (EReal.coe_nonneg.2 (Nat.cast_nonneg m))
          (EReal.coe_nonneg.2 (Nat.cast_nonneg n))).symm
      · exact ih xs m n

/-- Evaluation of the spec-modelled public compose on a Gaussian event: it
commits `count` times the per-order Gaussian RDP vector. -/
theorem compose_gaussian (acc : Accountant) (sigma : ℝ) (count : ℕ) :
    compose acc (.Gaussian sigma) count =
      .ok (true, { acc with rdp := (addScaled acc.rdp
        (acc.orders.map fun a =>
          if sigma = 0 then (⊤ : EReal)
          else ((a / (2 * sigma ^ 2) : ℝ) : EReal)) count) }) := by
  simp [compose, supports, _compose, _maybe_compose, poisson_vector_q1]

/-- Iterating the public compose on a Gaussian event accumulates the scaled
per-order vector with the iteration count. -/
theorem composeNTimes_gaussian (sigma : ℝ) :
    ∀ (N : ℕ) (acc : Accountant), acc.rdp.length = acc.orders.length →
    composeNTimes N acc (.Gaussian sigma) =
      .ok { acc with rdp := (addScaled acc.rdp
        (acc.orders.map fun a =>
          if sigma = 0 then (⊤ : EReal)
          else ((a / (2 * sigma ^ 2) : ℝ) : EReal)) N) } := by
  intro N
  induction N with
  | zero =>
    intro acc hlen
    rw [composeNTimes, addScaled_zero _ _ (by simp [hlen])]
  | succ N ih =>
    intro acc hlen
    rw [composeNTimes, compose_gaussian]
    simp only [except_bind_ok]
    rw [ih _ (by simp [addScaled, hlen])]
    simp only [addScaled_addScaled]
    rw [Nat.add_comm 1 N]

/-- C3.  Composing a Gaussian event exactly `N >= 1` times on a fresh
accountant yields exactly the same state (in exact arithmetic) as composing
`SelfComposed(Gaussian, N)` once: both add `N` times the per-event RDP
vector at every order. -/
theorem compose_selfcomposed_equivalence (orders : List ℝ)
    (rel : NeighboringRelation) (sigma : ℝ) (N : ℕ) (hN : 1 ≤ N) :
    composeNTimes N (RdpAccountant_init orders rel) (.Gaussian sigma) =
      (compose (RdpAccountant_init orders rel)
        (.SelfComposed (.Gaussian sigma) N) 1).map Prod.snd := by
  rw [composeNTimes_gaussian sigma N _ (by simp [RdpAccountant_init])]
  simp [compose, supports, _compose, _maybe_compose, poisson_vector_q1]

/-- Witness for C3 at `N = 1`, noise multiplier 1, order grid `[2]`. -/
theorem compose_selfcomposed_equivalence_witness :
    composeNTimes 1 (RdpAccountant_init [2] .ADD_OR_REMOVE_ONE) (.Gaussian 1) =
      (compose (RdpAccountant_init [2] .ADD_OR_REMOVE_ONE)
        (.SelfComposed (.Gaussian 1) 1) 1).map Prod.snd :=
  compose_selfcomposed_equivalence [2] .ADD_OR_REMOVE_ONE 1 1 le_rfl

/-! ### C6: NonPrivate forces the degenerate guarantee -/

/-- Evaluation of the spec-modelled public compose on a NonPrivate event:
it adds infinity to every order. -/
theorem compose_nonprivate (acc : Accountant) (count : ℕ) :
    compose acc .NonPrivate count =
      .ok (true, { acc with rdp := acc.rdp.map (· + ⊤) }) := by
  simp [compose, supports, _compose, _maybe_compose]

/-- The per-order epsilon value at infinite rdp is infinite for every
target delta strictly between 0 and 1. -/
theorem eps_val_top (a : ℝ) (delta : ℝ) (hd0 : 0 < delta) (hd1 : delta < 1) :
    eps_val a ⊤ delta = ⊤ := by
  rw [eps_val, if_neg ?hcond]
  case hcond =>
    intro hlt
    rw [EReal.neg_top, expm1E, if_pos rfl, ← EReal.coe_add] at hlt
    have h1 : (0 : ℝ) < delta ^ 2 + -1 := EReal.coe_pos.1 hlt
    have h2 : delta ^ 2 < 1 := pow_lt_one₀ hd0.le hd1 (by norm_num)
    linarith
  split_ifs with h
  · rw [EReal.top_add_coe, EReal.top_sub_coe]
  · rfl

/-- The per-order log-delta value at infinite rdp is zero for every finite
nonnegative target epsilon. -/
theorem delta_val_top (a : ℝ) (epsilon : ℝ) (ha : 1 ≤ a) :
    delta_val a ⊤ ((epsilon : ℝ) : EReal) = ((0 : ℝ) : EReal) := by
  have hkl : kl_logdelta ⊤ = ((0 : ℝ) : EReal) := by
    rw [kl_logdelta, if_neg (by simp), if_pos rfl]
  rw [delta_val]
  simp only [hkl]
  split_ifs with h
  · rw [EReal.top_sub_coe, EReal.top_add_coe,
      EReal.coe_mul_top_of_pos (by linarith), EReal.top_sub_coe]
    exact min_eq_left le_top
  · rfl

/-- `_compute_epsilon` on an all-infinite rdp vector returns infinity for
every target delta strictly between 0 and 1. -/
theorem compute_epsilon_all_top (orders : List ℝ) (rdp : List EReal)
    (delta : ℝ) (hne : orders ≠ []) (hlen : orders.length = rdp.length)
    (hord : ∀ a ∈ orders, 1 ≤ a) (hrdp : ∀ r ∈ rdp, r = ⊤)
    (hd0 : 0 < delta) (hd1 : delta < 1) :
    _compute_epsilon orders rdp delta = .ok ⊤ := by
  have hlen2 : ¬orders.length ≠ rdp.length := fun h => h hlen
  rw [_compute_epsilon, if_neg (not_lt.2 hd0.le), if_neg hd0.ne', if_neg hlen2]
  have hmap : (orders.zip rdp).mapM (fun p => eps_order p.1 p.2 delta) =
      .ok ((orders.zip rdp).map fun _ => (⊤ : EReal)) := by
    apply mapM_ok_of_forall
    intro p hp
    obtain ⟨a, b⟩ := p
    obtain ⟨hp1, hp2⟩ := List.of_mem_zip hp
    show eps_order a b delta = _
    rw [eps_order, if_neg (not_lt.2 (hord _ hp1)), if_neg (by rw [hrdp _ hp2]; simp),
      hrdp _ hp2, eps_val_top _ _ hd0 hd1]
  rw [hmap]
  cases hz : orders.zip rdp with
  | nil =>
    exfalso
    cases orders with
    | nil => exact hne rfl
    | cons o os =>
      cases rdp with
      | nil => simp at hlen
      | cons r rs => simp [List.zip_cons_cons] at hz
  | cons p ps =>
    simp only [List.map_cons, except_bind_ok]
    have hmin : listMin ⊤ (ps.map fun _ => (⊤ : EReal)) = ⊤ := by
      rcases listMin_mem ⊤ (ps.map fun _ => (⊤ : EReal)) with h | h
      · exact h
      · rcases List.mem_map.1 h with ⟨x, hx, hq⟩
        exact hq.symm
    rw [hmin]
    rw [max_eq_right le_top]

/-- `_compute_delta` on an all-infinite rdp vector returns exactly 1 for
every finite nonnegative target epsilon. -/
theorem compute_delta_all_top (orders : List ℝ) (rdp : List EReal)
    (epsilon : ℝ) (hne : orders ≠ []) (hlen : orders.length = rdp.length)
    (hord : ∀ a ∈ orders, 1 ≤ a) (hrdp : ∀ r ∈ rdp, r = ⊤)
    (he : 0 ≤ epsilon) :
    _compute_delta orders rdp ((epsilon : ℝ) : EReal) = .ok ((1 : ℝ) : EReal) := by
  have h0 : ¬(((epsilon : ℝ) : EReal) < 0) := by
    rw [← EReal.coe_zero]
    exact not_lt.2 (EReal.coe_le_coe_iff.2 he)
  have hlen2 : ¬orders.length ≠ rdp.length := fun h => h hlen
  rw [_compute_delta, if_neg h0, if_neg hlen2]
  have hmap : (orders.zip rdp).mapM (fun p => delta_order p.1 p.2 ((epsilon : ℝ) : EReal)) =
      .ok ((orders.zip rdp).map fun _ => ((0 : ℝ) : EReal)) := by
    apply mapM_ok_of_forall
    intro p hp
    obtain ⟨a, b⟩ := p
    obtain ⟨hp1, hp2⟩ := List.of_mem_zip hp
    show delta_order a b _ = _
    rw [delta_order, if_neg (not_lt.2 (hord _ hp1)), if_neg (by rw [hrdp _ hp2]; simp),
      hrdp _ hp2, delta_val_top _ _ (hord _ hp1)]
  rw [hmap]
  cases hz : orders.zip rdp with
  | nil =>
    exfalso
    cases orders with
    | nil => exact hne rfl
    | cons o os =>
      cases rdp with
      | nil => simp at hlen
      | cons r rs => simp [List.zip_cons_cons] at hz
  | cons p ps =>
    simp only [List.map_cons, except_bind_ok]
    have hmin : listMin ((0 : ℝ) : EReal) (ps.map fun _ => ((0 : ℝ) : EReal)) =
        ((0 : ℝ) : EReal) := by
      rcases listMin_mem ((0 : ℝ) : EReal) (ps.map fun _ => ((0 : ℝ) : EReal)) with h | h
      · exact h
      · rcases List.mem_map.1 h with ⟨x, hx, hq⟩
        exact hq.symm
    rw [hmin]
    have hexp : expE ((0 : ℝ) : EReal) = ((1 : ℝ) : EReal) := by
      rw [expE, if_neg (EReal.coe_ne_bot 0), if_neg (EReal.coe_ne_top 0),
        EReal.toReal_coe, Real.exp_zero]
    rw [hexp, min_self]

/-- C6.  After composing a NonPrivate event on a well-formed accountant
state, every target delta strictly between 0 and 1 yields an infinite
epsilon, and every finite nonnegative target epsilon yields delta exactly 1. -/
theorem nonprivate_degenerate_guarantee (acc : Accountant)
    (hne : acc.orders ≠ []) (hlen : acc.orders.length = acc.rdp.length)
    (hord : ∀ a ∈ acc.orders, 1 ≤ a) (hrdp : ∀ r ∈ acc.rdp, 0 ≤ r)
    (count : ℕ) (acc2 : Accountant)
    (hc : compose acc .NonPrivate count = .ok (true, acc2))
    (delta : ℝ) (hd0 : 0 < delta) (hd1 : delta < 1)
    (epsilon : ℝ) (he : 0 ≤ epsilon) :
    get_epsilon acc2 delta = .ok ⊤ ∧
    get_delta acc2 ((epsilon : ℝ) : EReal) = .ok ((1 : ℝ) : EReal) := by
  rw [compose_nonprivate] at hc
  injection hc with h1
  injection h1 with hb hacc
  subst hacc
  have hb0 : (⊥ : EReal) < 0 := by
    rw [← EReal.coe_zero]
    exact EReal.bot_lt_coe 0
  have htop : ∀ r ∈ acc.rdp.map (· + ⊤), r = ⊤ := by
    intro r hr
    rcases List.mem_map.1 hr with ⟨x, hx, rfl⟩
    have hxb : x ≠ ⊥ := by
      intro hxbot
      have hge := hrdp x hx
      rw [hxbot] at hge
      exact (lt_irrefl (⊥ : EReal)) (lt_of_lt_of_le hb0 hge)
    exact EReal.add_top_of_ne_bot hxb
  constructor
  · exact compute_epsilon_all_top acc.orders _ delta hne (by simpa using hlen)
      hord htop hd0 hd1
  · exact compute_delta_all_top acc.orders _ epsilon hne (by simpa using hlen)
      hord htop he

/-- Witness for C6 at a concrete one-order accountant, delta one half,
epsilon zero. -/
theorem nonprivate_degenerate_guarantee_witness :
    get_epsilon ⟨[2], List.map (· + ⊤) [((0 : ℝ) : EReal)], .ADD_OR_REMOVE_ONE⟩
        (1/2) = .ok ⊤ ∧
    get_delta ⟨[2], List.map (· + ⊤) [((0 : ℝ) : EReal)], .ADD_OR_REMOVE_ONE⟩
        (((0 : ℝ) : ℝ) : EReal) = .ok ((1 : ℝ) : EReal) :=
  nonprivate_degenerate_guarantee
    ⟨[2], [((0 : ℝ) : EReal)], .ADD_OR_REMOVE_ONE⟩
    (by simp) (by simp) (by intro a ha; simp at ha; rw [ha]; norm_num)
    (by intro r hr; simp at hr; rw [hr])
    1 _ (compose_nonprivate _ 1) (1/2) (by norm_num) (by norm_num) 0 le_rfl

/-! ### C2: conversion soundness round-trip -/

theorem ne_bot_of_nonneg {r : EReal} (hr : 0 ≤ r) : r ≠ ⊥ := by
  intro h
  rw [h, ← EReal.coe_zero] at hr
  exact (EReal.bot_lt_coe 0).not_le hr

/-- The IEEE-limits exponential on extended reals is monotone. -/
theorem expE_mono {x y : EReal} (h : x ≤ y) : expE x ≤ expE y := by
  by_cases hx1 : x = ⊥
  · rw [expE, if_pos hx1, expE]
    split_ifs with h1 h2
    · exact le_refl _
    · exact le_top
    · exact EReal.coe_le_coe_iff.2 (Real.exp_pos _).le
  by_cases hx2 : x = ⊤
  · have hy : y = ⊤ := top_le_iff.1 (hx2 ▸ h)
    rw [hx2, hy]
  have hy1 : y ≠ ⊥ := by
    intro hb
    exact hx1 (le_bot_iff.1 (hb ▸ h))
  by_cases hy2 : y = ⊤
  · rw [expE, if_neg hx1, if_neg hx2, expE, if_neg hy1, if_pos hy2]
    exact le_top
  · rw [expE, if_neg hx1, if_neg hx2, expE, if_neg hy1, if_neg hy2]
    exact EReal.coe_le_coe_iff.2 (Real.exp_le_exp.2 (EReal.toReal_le_toReal h hx1 hy2))

/-- When the KL-certification branch of `_compute_epsilon` fires, the
per-order KL delta bound is at most the target delta (in log space), for any
target delta strictly between 0 and 1. -/
theorem kl_le_log_delta (r : EReal) (delta : ℝ) (hr : 0 ≤ r) (hd0 : 0 < delta)
    (hd1 : delta < 1)
    (hcond : (0 : EReal) < ((delta ^ 2 : ℝ) : EReal) + expm1E (-r)) :
    kl_logdelta r ≤ ((Real.log delta : ℝ) : EReal) := by
  by_cases hr0 : r = 0
  · rw [kl_logdelta, if_pos hr0]
    exact bot_le
  by_cases hrt : r = ⊤
  · exfalso
    rw [hrt, EReal.neg_top, expm1E, if_pos rfl, ← EReal.coe_add] at hcond
    have h1 := EReal.coe_pos.1 hcond
    nlinarith
  have hrb : r ≠ ⊥ := ne_bot_of_nonneg hr
  obtain ⟨rr, rfl⟩ : ∃ rr : ℝ, r = ((rr : ℝ) : EReal) :=
    ⟨r.toReal, (EReal.coe_toReal hrt hrb).symm⟩
  have hrr0 : 0 < rr := by
    have h1 : (0 : ℝ) ≤ rr := by
      rw [← EReal.coe_zero] at hr
      exact EReal.coe_le_coe_iff.1 hr
    rcases h1.lt_or_eq with h2 | h2
    · exact h2
    · exact absurd (by rw [← h2, EReal.coe_zero]) hr0
  rw [← EReal.coe_neg, expm1E, if_neg (EReal.coe_ne_bot _),
    if_neg (EReal.coe_ne_top _), EReal.toReal_coe, ← EReal.coe_add] at hcond
  have hreal := EReal.coe_pos.1 hcond
  rw [kl_logdelta, if_neg hr0, if_neg hrt, EReal.toReal_coe, EReal.coe_le_coe_iff]
  have hexplt : Real.exp (-rr) < 1 := by
    rw [show (1 : ℝ) = Real.exp 0 by rw [Real.exp_zero]]
    exact Real.exp_lt_exp.2 (by linarith)
  have hu0 : 0 < 1 - Real.exp (-rr) := by linarith
  have hlogu : Real.log (1 - Real.exp (-rr)) ≤ Real.log (delta ^ 2) := by
    apply (Real.log_le_log_iff hu0 (by positivity)).2
    linarith
  rw [Real.log_pow] at hlogu
  push_cast at hlogu
  linarith

/-- When the per-order epsilon value of `_compute_epsilon` is at most the
finite returned epsilon, the corresponding per-order delta bound of
`_compute_delta` at that epsilon is at most the target delta in log space. -/
theorem delta_val_le_of_eps_val_le (a : ℝ) (r : EReal) (delta epsilon : ℝ)
    (ha : 1 ≤ a) (hr : 0 ≤ r) (hd0 : 0 < delta) (hd1 : delta < 1)
    (hle : eps_val a r delta ≤ ((epsilon : ℝ) : EReal)) :
    delta_val a r ((epsilon : ℝ) : EReal) ≤ ((Real.log delta : ℝ) : EReal) := by
  rw [eps_val] at hle
  by_cases hcond : (0 : EReal) < ((delta ^ 2 : ℝ) : EReal) + expm1E (-r)
  · have hkl := kl_le_log_delta r delta hr hd0 hd1 hcond
    rw [delta_val]
    split_ifs with h101
    · exact le_trans (min_le_left _ _) hkl
    · exact hkl
  · rw [if_neg hcond] at hle
    split_ifs at hle with h101
    · have hrt : r ≠ ⊤ := by
        intro ht
        rw [ht, EReal.top_add_coe, EReal.top_sub_coe] at hle
        exact EReal.coe_ne_top epsilon (top_le_iff.1 hle)
      have hrb : r ≠ ⊥ := ne_bot_of_nonneg hr
      obtain ⟨rr, rfl⟩ : ∃ rr : ℝ, r = ((rr : ℝ) : EReal) :=
        ⟨r.toReal, (EReal.coe_toReal hrt hrb).symm⟩
      rw [← EReal.coe_add, ← EReal.coe_sub, EReal.coe_le_coe_iff] at hle
      have ha0 : (0 : ℝ) < a := by linarith
      have ha1 : (0 : ℝ) < a - 1 := by linarith
      rw [delta_val, if_pos h101]
      refine le_trans (min_le_right _ _) ?_
      rw [← EReal.coe_sub, ← EReal.coe_add, ← EReal.coe_mul, ← EReal.coe_sub,
        EReal.coe_le_coe_iff]
      have hdiv : rr - epsilon + Real.log (1 - 1 / a) ≤
          Real.log (delta * a) / (a - 1) := by linarith
      have hmul : (rr - epsilon + Real.log (1 - 1 / a)) * (a - 1) ≤
          Real.log (delta * a) := (le_div_iff ha1).1 hdiv
      have hlogmul : Real.log (delta * a) = Real.log delta + Real.log a :=
        Real.log_mul hd0.ne' ha0.ne'
      nlinarith
    · exact absurd (top_le_iff.1 hle) (EReal.coe_ne_top epsilon)

/-- The per-order delta bound at zero rdp is log-space zero. -/
theorem delta_val_zero_rdp (a : ℝ) (e : EReal) : delta_val a 0 e = ⊥ := by
  have h1 : kl_logdelta (0 : EReal) = ⊥ := by rw [kl_logdelta, if_pos rfl]
  rw [delta_val]
  simp only [h1]
  split_ifs with h
  · exact min_eq_left bot_le
  · rfl

theorem zip_cons_of_ne_nil {α β : Type} (l1 : List α) (l2 : List β)
    (hne : l1 ≠ []) (hlen : l1.length = l2.length) :
    ∃ p0 ps, l1.zip l2 = p0 :: ps := by
  cases l1 with
  | nil => exact absurd rfl hne
  | cons a as =>
    cases l2 with
    | nil => simp at hlen
    | cons b bs => exact ⟨(a, b), as.zip bs, rfl⟩

theorem listMin_map_attained {α : Type} (g : α → EReal) (x : α) (xs : List α) :
    ∃ p, (p = x ∨ p ∈ xs) ∧ listMin (g x) (xs.map g) = g p := by
  rcases listMin_mem (g x) (xs.map g) with h | h
  · exact ⟨x, Or.inl rfl, h⟩
  · rcases List.mem_map.1 h with ⟨p, hp, hq⟩
    exact ⟨p, Or.inr hp, hq.symm⟩

theorem listMin_map_le {α : Type} (g : α → EReal) (x : α) (xs : List α) (p : α)
    (hp : p = x ∨ p ∈ xs) : listMin (g x) (xs.map g) ≤ g p := by
  rcases hp with rfl | hp
  · exact listMin_le_head _ _
  · exact listMin_le_mem _ _ _ (List.mem_map_of_mem g hp)

/-- Evaluation of `_compute_epsilon` on a well-formed nonempty state with a
positive target delta. -/
theorem compute_epsilon_eval (orders : List ℝ) (rdp : List EReal) (delta : ℝ)
    (hne : orders ≠ []) (hlen : orders.length = rdp.length)
    (hord : ∀ a ∈ orders, 1 ≤ a) (hrdp : ∀ r ∈ rdp, 0 ≤ r) (hd : 0 < delta) :
    ∃ p0 ps, orders.zip rdp = p0 :: ps ∧
      _compute_epsilon orders rdp delta =
        .ok (max ((0 : ℝ) : EReal)
          (listMin (eps_val p0.1 p0.2 delta) (ps.map fun p => eps_val p.1 p.2 delta))) := by
  obtain ⟨p0, ps, hz⟩ := zip_cons_of_ne_nil orders rdp hne hlen
  refine ⟨p0, ps, hz, ?_⟩
  have hlen2 : ¬orders.length ≠ rdp.length := fun h => h hlen
  rw [_compute_epsilon, if_neg (not_lt.2 hd.le), if_neg hd.ne', if_neg hlen2]
  have hmap : (orders.zip rdp).mapM (fun p => eps_order p.1 p.2 delta) =
      .ok ((orders.zip rdp).map fun p => eps_val p.1 p.2 delta) := by
    apply mapM_ok_of_forall
    intro p hp
    obtain ⟨a, b⟩ := p
    obtain ⟨hp1, hp2⟩ := List.of_mem_zip hp
    show eps_order a b delta = _
    rw [eps_order, if_neg (not_lt.2 (hord _ hp1)), if_neg (not_lt.2 (hrdp _ hp2))]
  rw [hmap, hz]
  simp only [List.map_cons, except_bind_ok]

/-- Evaluation of `_compute_delta` on a well-formed nonempty state with a
nonnegative target epsilon. -/
theorem compute_delta_eval (orders : List ℝ) (rdp : List EReal) (epsE : EReal)
    (hne : orders ≠ []) (hlen : orders.length = rdp.length)
    (hord : ∀ a ∈ orders, 1 ≤ a) (hrdp : ∀ r ∈ rdp, 0 ≤ r) (h0 : ¬epsE < 0) :
    ∃ p0 ps, orders.zip rdp = p0 :: ps ∧
      _compute_delta orders rdp epsE =
        .ok (min (expE (listMin (delta_val p0.1 p0.2 epsE)
          (ps.map fun p => delta_val p.1 p.2 epsE))) ((1 : ℝ) : EReal)) := by
  obtain ⟨p0, ps, hz⟩ := zip_cons_of_ne_nil orders rdp hne hlen
  refine ⟨p0, ps, hz, ?_⟩
  have hlen2 : ¬orders.length ≠ rdp.length := fun h => h hlen
  rw [_compute_delta, if_neg h0, if_neg hlen2]
  have hmap : (orders.zip rdp).mapM (fun p => delta_order p.1 p.2 epsE) =
      .ok ((orders.zip rdp).map fun p => delta_val p.1 p.2 epsE) := by
    apply mapM_ok_of_forall
    intro p hp
    obtain ⟨a, b⟩ := p
    obtain ⟨hp1, hp2⟩ := List.of_mem_zip hp
    show delta_order a b epsE = _
    rw [delta_order, if_neg (not_lt.2 (hord _ hp1)), if_neg (not_lt.2 (hrdp _ hp2))]
  rw [hmap, hz]
  simp only [List.map_cons, except_bind_ok]

/-- C2 as amended: on a well-formed nonempty accountant state, whenever
`_compute_epsilon` returns a finite epsilon for a nonnegative target delta,
feeding that epsilon back into `_compute_delta` yields a delta at most the
target. -/
theorem epsilon_delta_roundtrip_sound_of_finite (orders : List ℝ)
    (rdp : List EReal) (delta : ℝ) (hne : orders ≠ [])
    (hlen : orders.length = rdp.length) (hord : ∀ a ∈ orders, 1 ≤ a)
    (hrdp : ∀ r ∈ rdp, 0 ≤ r) (hdelta : 0 ≤ delta) (epsilon : ℝ)
    (heps : _compute_epsilon orders rdp delta = .ok ((epsilon : ℝ) : EReal)) :
    ∃ d : EReal, _compute_delta orders rdp ((epsilon : ℝ) : EReal) = .ok d ∧
      d ≤ ((delta : ℝ) : EReal) := by
  rcases hdelta.lt_or_eq with hd0 | hd0
  · -- positive target delta
    obtain ⟨p0, ps, hz, heval⟩ :=
      compute_epsilon_eval orders rdp delta hne hlen hord hrdp hd0
    rw [heval] at heps
    have hmax := Except.ok.inj heps
    have heps0 : (0 : ℝ) ≤ epsilon := by
      have h1 : ((0 : ℝ) : EReal) ≤ ((epsilon : ℝ) : EReal) := hmax ▸ le_max_left _ _
      exact EReal.coe_le_coe_iff.1 h1
    obtain ⟨q0, qs, hz2, hdeval⟩ :=
      compute_delta_eval orders rdp ((epsilon : ℝ) : EReal) hne hlen hord hrdp
        (by rw [← EReal.coe_zero]; exact not_lt.2 (EReal.coe_le_coe_iff.2 heps0))
    rw [hz] at hz2
    injection hz2 with hq1 hq2
    subst hq1
    subst hq2
    refine ⟨_, hdeval, ?_⟩
    by_cases hd1 : 1 ≤ delta
    · exact le_trans (min_le_right _ _) (EReal.coe_le_coe_iff.2 hd1)
    · have hd1' : delta < 1 := not_le.1 hd1
      obtain ⟨p, hp, hpm⟩ :=
        listMin_map_attained (fun q => eps_val q.1 q.2 delta) p0 ps
      have hle : eps_val p.1 p.2 delta ≤ ((epsilon : ℝ) : EReal) := by
        rw [← hpm, ← hmax]
        exact le_max_right _ _
      have hpz : p ∈ orders.zip rdp := by
        rw [hz]
        rcases hp with rfl | hp2
        · exact List.mem_cons_self _ _
        · exact List.mem_cons_of_mem _ hp2
      obtain ⟨a, b⟩ := p
      obtain ⟨hp1, hp2⟩ := List.of_mem_zip hpz
      have hkey := delta_val_le_of_eps_val_le a b delta epsilon (hord _ hp1)
        (hrdp _ hp2) hd0 hd1' hle
      have h5 : listMin (delta_val p0.1 p0.2 ((epsilon : ℝ) : EReal))
          (ps.map fun q => delta_val q.1 q.2 ((epsilon : ℝ) : EReal)) ≤
          delta_val a b ((epsilon : ℝ) : EReal) :=
        listMin_map_le (fun q => delta_val q.1 q.2 ((epsilon : ℝ) : EReal)) p0 ps (a, b) hp
      have h6 := expE_mono (le_trans h5 hkey)
      have h7 : expE ((Real.log delta : ℝ) : EReal) = ((delta : ℝ) : EReal) := by
        rw [expE, if_neg (EReal.coe_ne_bot _), if_neg (EReal.coe_ne_top _),
          EReal.toReal_coe, Real.exp_log hd0]
      exact le_trans (min_le_left _ _) (le_trans h6 (le_of_eq h7))
  · -- target delta zero
    subst hd0
    rw [_compute_epsilon, if_neg (lt_irrefl 0), if_pos rfl] at heps
    by_cases hall : ∀ r ∈ rdp, r = 0
    · rw [if_pos hall] at heps
      have heq : (0 : ℝ) = epsilon := EReal.coe_eq_coe_iff.1 (Except.ok.inj heps)
      obtain ⟨p0, ps, hz, hdeval⟩ :=
        compute_delta_eval orders rdp ((epsilon : ℝ) : EReal) hne hlen hord hrdp
          (by rw [← heq, EReal.coe_zero]; exact lt_irrefl 0)
      refine ⟨_, hdeval, ?_⟩
      have hp0z : p0 ∈ orders.zip rdp := by
        rw [hz]
        exact List.mem_cons_self _ _
      have hp02 : p0.2 = 0 := by
        obtain ⟨a, b⟩ := p0
        exact hall _ (List.of_mem_zip hp0z).2
      have hbot : delta_val p0.1 p0.2 ((epsilon : ℝ) : EReal) = ⊥ := by
        rw [hp02]
        exact delta_val_zero_rdp _ _
      have hminbot : listMin (delta_val p0.1 p0.2 ((epsilon : ℝ) : EReal))
          (ps.map fun q => delta_val q.1 q.2 ((epsilon : ℝ) : EReal)) = ⊥ :=
        le_bot_iff.1 (hbot ▸ listMin_le_head _ _)
      rw [hminbot]
      have hexpbot : expE ⊥ = ((0 : ℝ) : EReal) := by rw [expE, if_pos rfl]
      rw [hexpbot, min_eq_left (EReal.coe_le_coe_iff.2 (by norm_num))]
    · rw [if_neg hall] at heps
      exact absurd (Except.ok.inj heps) (EReal.coe_ne_top epsilon).symm

/-- Witness for C2 (amended): a concrete state where the round trip holds
with a finite returned epsilon. -/
theorem epsilon_delta_roundtrip_sound_of_finite_witness :
    ∃ d : EReal, _compute_delta [2] [((0 : ℝ) : EReal)] (((0 : ℝ) : ℝ) : EReal) = .ok d ∧
      d ≤ ((0 : ℝ) : EReal) :=
  epsilon_delta_roundtrip_sound_of_finite [2] [((0 : ℝ) : EReal)] 0 (by simp)
    (by simp) (by intro a ha; simp at ha; rw [ha]; norm_num)
    (by intro r hr; simp at hr; rw [hr]) le_rfl 0
    (by rw [_compute_epsilon, if_neg (lt_irrefl 0), if_pos rfl,
      if_pos (by intro r hr; simp at hr; exact hr)])

/-- Counterexample to C2 as stated: at the state with single order 1 and
accumulated rdp `log 2`, target delta one half, `_compute_epsilon` returns
infinity, and feeding that epsilon into `_compute_delta` returns
`sqrt(1/2) > 1/2`, violating `get_delta(get_epsilon(delta)) <= delta`. -/
theorem epsilon_delta_roundtrip_counterexample :
    _compute_epsilon [1] [((Real.log 2 : ℝ) : EReal)] (1/2) = .ok ⊤ ∧
    _compute_delta [1] [((Real.log 2 : ℝ) : EReal)] ⊤ =
      .ok ((Real.exp (0.5 * Real.log (1 - Real.exp (-Real.log 2))) : ℝ) : EReal) ∧
    ((1/2 : ℝ) : EReal) <
      ((Real.exp (0.5 * Real.log (1 - Real.exp (-Real.log 2))) : ℝ) : EReal) := by
  have hexpneg : Real.exp (-Real.log 2) = 1/2 := by
    rw [Real.exp_neg, Real.exp_log (by norm_num)]
    norm_num
  have hlog2pos : (0 : ℝ) < Real.log 2 := Real.log_pos (by norm_num)
  have hcpos : (0 : ℝ) < Real.exp (0.5 * Real.log (1 - Real.exp (-Real.log 2))) :=
    Real.exp_pos _
  have hc2 : Real.exp (0.5 * Real.log (1 - Real.exp (-Real.log 2))) *
      Real.exp (0.5 * Real.log (1 - Real.exp (-Real.log 2))) = 1/2 := by
    rw [← Real.exp_add, show 0.5 * Real.log (1 - Real.exp (-Real.log 2)) +
      0.5 * Real.log (1 - Real.exp (-Real.log 2)) =
      Real.log (1 - Real.exp (-Real.log 2)) by ring, Real.exp_log (by rw [hexpneg]; norm_num),
      hexpneg]
    norm_num
  have hchalf : (1/2 : ℝ) < Real.exp (0.5 * Real.log (1 - Real.exp (-Real.log 2))) := by
    nlinarith
  have hc1 : Real.exp (0.5 * Real.log (1 - Real.exp (-Real.log 2))) ≤ 1 := by
    nlinarith
  have hrnn : ¬(((Real.log 2 : ℝ) : EReal) < 0) := by
    rw [← EReal.coe_zero]
    exact not_lt.2 (EReal.coe_le_coe_iff.2 hlog2pos.le)
  have heps_val : eps_val 1 ((Real.log 2 : ℝ) : EReal) (1/2) = ⊤ := by
    rw [eps_val, if_neg ?c1, if_neg (by norm_num)]
    case c1 =>
      rw [← EReal.coe_neg, expm1E, if_neg (EReal.coe_ne_bot _),
        if_neg (EReal.coe_ne_top _), EReal.toReal_coe, hexpneg, ← EReal.coe_add]
      intro h
      have h2 := EReal.coe_pos.1 h
      norm_num at h2
  have heps_order : eps_order 1 ((Real.log 2 : ℝ) : EReal) (1/2) = .ok ⊤ := by
    rw [eps_order, if_neg (by norm_num), if_neg hrnn, heps_val]
  have hdval : delta_val 1 ((Real.log 2 : ℝ) : EReal) ⊤ =
      ((0.5 * Real.log (1 - Real.exp (-Real.log 2)) : ℝ) : EReal) := by
    rw [delta_val]
    have hkl : kl_logdelta ((Real.log 2 : ℝ) : EReal) =
        ((0.5 * Real.log (1 - Real.exp (-Real.log 2)) : ℝ) : EReal) := by
      rw [kl_logdelta, if_neg (by rw [EReal.coe_eq_zero]; exact hlog2pos.ne'),
        if_neg (EReal.coe_ne_top _), EReal.toReal_coe]
    simp only [hkl]
    rw [if_neg (by norm_num)]
  have hdorder : delta_order 1 ((Real.log 2 : ℝ) : EReal) ⊤ =
      .ok ((0.5 * Real.log (1 - Real.exp (-Real.log 2)) : ℝ) : EReal) := by
    rw [delta_order, if_neg (by norm_num), if_neg hrnn, hdval]
  refine ⟨?_, ?_, ?_⟩
  · rw [_compute_epsilon, if_neg (by norm_num), if_neg (by norm_num), if_neg (by simp)]
    rw [show ([(1 : ℝ)].zip [((Real.log 2 : ℝ) : EReal)]) =
      [((1 : ℝ), ((Real.log 2 : ℝ) : EReal))] from rfl]
    rw [List.mapM_cons, heps_order]
    simp only [except_bind_ok, List.mapM_nil]
    rw [show (pure [] : Except String (List EReal)) = .ok [] from rfl]
    simp only [except_bind_ok]
    rw [show (pure [(⊤ : EReal)] : Except String (List EReal)) = .ok [⊤] from rfl]
    simp only [except_bind_ok]
    rw [show listMin ⊤ ([] : List EReal) = ⊤ from rfl, max_eq_right le_top]
  · rw [_compute_delta, if_neg (not_lt.2 le_top), if_neg (by simp)]
    rw [show ([(1 : ℝ)].zip [((Real.log 2 : ℝ) : EReal)]) =
      [((1 : ℝ), ((Real.log 2 : ℝ) : EReal))] from rfl]
    rw [List.mapM_cons, hdorder]
    simp only [except_bind_ok, List.mapM_nil]
    rw [show (pure [] : Except String (List EReal)) = .ok [] from rfl]
    simp only [except_bind_ok]
    rw [show (pure [((0.5 * Real.log (1 - Real.exp (-Real.log 2)) : ℝ) : EReal)] :
      Except String (List EReal)) = .ok [((0.5 * Real.log (1 - Real.exp (-Real.log 2)) : ℝ) : EReal)] from rfl]
    simp only [except_bind_ok]
    rw [show listMin ((0.5 * Real.log (1 - Real.exp (-Real.log 2)) : ℝ) : EReal)
      ([] : List EReal) = ((0.5 * Real.log (1 - Real.exp (-Real.log 2)) : ℝ) : EReal) from rfl]
    rw [expE, if_neg (EReal.coe_ne_bot _), if_neg (EReal.coe_ne_top _), EReal.toReal_coe]
    rw [min_eq_left (EReal.coe_le_coe_iff.2 hc1)]
  · exact EReal.coe_lt_coe_iff.2 hchalf

/-! ### Supporting invariant: the order grid and relation never change -/

mutual

/-- Whatever `_maybe_compose` does in either mode, a successful call leaves
the order grid and the neighboring relation of the accountant untouched:
only the rdp vector is ever rewritten. -/
theorem maybe_compose_preserves_grid (acc : Accountant) (event : DpEvent)
    (count : ℕ) (dc : Bool) :
    ∀ b acc2, _maybe_compose acc event count dc = .ok (b, acc2) →
      acc2.orders = acc.orders ∧
      acc2.neighboring_relation = acc.neighboring_relation := by
  cases event with
  | NoOp =>
    intro b acc2 h
    simp only [_maybe_compose] at h
    obtain ⟨-, h2⟩ := Prod.mk.injEq _ _ _ _ ▸ Except.ok.inj h
    rw [← h2]
    exact ⟨rfl, rfl⟩
  | NonPrivate =>
    intro b acc2 h
    simp only [_maybe_compose] at h
    cases dc with
    | false =>
      simp only [Bool.false_eq_true, if_false] at h
      obtain ⟨-, h2⟩ := Prod.mk.injEq _ _ _ _ ▸ Except.ok.inj h
      rw [← h2]
      exact ⟨rfl, rfl⟩
    | true =>
      simp only [if_true] at h
      obtain ⟨-, h2⟩ := Prod.mk.injEq _ _ _ _ ▸ Except.ok.inj h
      rw [← h2]
      exact ⟨rfl, rfl⟩
  | SelfComposed inner inner_count =>
    intro b acc2 h
    simp only [_maybe_compose] at h
    exact maybe_compose_preserves_grid acc inner (inner_count * count) dc b acc2 h
  | Composed events =>
    intro b acc2 h
    simp only [_maybe_compose] at h
    exact maybe_compose_all_preserves_grid acc events count dc b acc2 h
  | Gaussian noise_multiplier =>
    intro b acc2 h
    simp only [_maybe_compose] at h
    cases dc with
    | false =>
      simp only [Bool.false_eq_true, if_false] at h
      obtain ⟨-, h2⟩ := Prod.mk.injEq _ _ _ _ ▸ Except.ok.inj h
      rw [← h2]
      exact ⟨rfl, rfl⟩
    | true =>
      simp only [if_true] at h
      cases hv : _compute_rdp_poisson_subsampled_gaussian 1 noise_multiplier acc.orders with
      | error msg => rw [hv] at h; exact absurd h (by simp)
      | ok v =>
        rw [hv] at h
        simp only [except_bind_ok] at h
        obtain ⟨-, h2⟩ := Prod.mk.injEq _ _ _ _ ▸ Except.ok.inj h
        rw [← h2]
        exact ⟨rfl, rfl⟩
  | PoissonSampled sampling_probability inner =>
    intro b acc2 h
    simp only [_maybe_compose] at h
    by_cases hrel : acc.neighboring_relation = .ADD_OR_REMOVE_ONE
    · rw [if_neg (by simp [hrel])] at h
      cases hgnm : _effective_gaussian_noise_multiplier inner with
      | error msg => rw [hgnm] at h; exact absurd h (by simp)
      | ok o =>
        rw [hgnm] at h
        simp only [except_bind_ok] at h
        cases o with
        | none =>
          obtain ⟨-, h2⟩ := Prod.mk.injEq _ _ _ _ ▸ Except.ok.inj h
          rw [← h2]
          exact ⟨rfl, rfl⟩
        | some sigma =>
          cases dc with
          | false =>
            simp only [Bool.false_eq_true, if_false] at h
            obtain ⟨-, h2⟩ := Prod.mk.injEq _ _ _ _ ▸ Except.ok.inj h
            rw [← h2]
            exact ⟨rfl, rfl⟩
          | true =>
            simp only [if_true] at h
            cases hv : _compute_rdp_poisson_subsampled_gaussian sampling_probability
              sigma acc.orders with
            | error msg => rw [hv] at h; exact absurd h (by simp)
            | ok v =>
              rw [hv] at h
              simp only [except_bind_ok] at h
              obtain ⟨-, h2⟩ := Prod.mk.injEq _ _ _ _ ▸ Except.ok.inj h
              rw [← h2]
              exact ⟨rfl, rfl⟩
    · rw [if_pos (by simp [hrel])] at h
      obtain ⟨-, h2⟩ := Prod.mk.injEq _ _ _ _ ▸ Except.ok.inj h
      rw [← h2]
      exact ⟨rfl, rfl⟩
  | SampledWithoutReplacement sample_size source_dataset_size inner =>
    intro b acc2 h
    simp only [_maybe_compose] at h
    by_cases hrel : acc.neighboring_relation = .REPLACE_ONE
    · rw [if_neg (by simp [hrel])] at h
      cases hgnm : _effective_gaussian_noise_multiplier inner with
      | error msg => rw [hgnm] at h; exact absurd h (by simp)
      | ok o =>
        rw [hgnm] at h
        simp only [except_bind_ok] at h
        cases o with
        | none =>
          obtain ⟨-, h2⟩ := Prod.mk.injEq _ _ _ _ ▸ Except.ok.inj h
          rw [← h2]
          exact ⟨rfl, rfl⟩
        | some sigma =>
          cases dc with
          | false =>
            simp only [Bool.false_eq_true, if_false] at h
            obtain ⟨-, h2⟩ := Prod.mk.injEq _ _ _ _ ▸ Except.ok.inj h
            rw [← h2]
            exact ⟨rfl, rfl⟩
          | true =>
            simp only [if_true] at h
            cases hv : _compute_rdp_sample_wor_gaussian
              ((sample_size : ℝ) / (source_dataset_size : ℝ)) sigma acc.orders with
            | error msg => rw [hv] at h; exact absurd h (by simp)
            | ok v =>
              rw [hv] at h
              simp only [except_bind_ok] at h
              obtain ⟨-, h2⟩ := Prod.mk.injEq _ _ _ _ ▸ Except.ok.inj h
              rw [← h2]
              exact ⟨rfl, rfl⟩
    · rw [if_pos (by simp [hrel])] at h
      obtain ⟨-, h2⟩ := Prod.mk.injEq _ _ _ _ ▸ Except.ok.inj h
      rw [← h2]
      exact ⟨rfl, rfl⟩
  | SingleEpochTreeAggregation noise_multiplier step_counts =>
    intro b acc2 h
    simp only [_maybe_compose] at h
    by_cases hrel : acc.neighboring_relation = .REPLACE_SPECIAL
    · rw [if_neg (by simp [hrel])] at h
      cases dc with
      | false =>
        simp only [Bool.false_eq_true, if_false] at h
        obtain ⟨-, h2⟩ := Prod.mk.injEq _ _ _ _ ▸ Except.ok.inj h
        rw [← h2]
        exact ⟨rfl, rfl⟩
      | true =>
        simp only [if_true] at h
        cases hv : _compute_rdp_single_epoch_tree_aggregation noise_multiplier
          step_counts acc.orders with
        | error msg => rw [hv] at h; exact absurd h (by simp)
        | ok v =>
          rw [hv] at h
          simp only [except_bind_ok] at h
          obtain ⟨-, h2⟩ := Prod.mk.injEq _ _ _ _ ▸ Except.ok.inj h
          rw [← h2]
          exact ⟨rfl, rfl⟩
    · rw [if_pos (by simp [hrel])] at h
      obtain ⟨-, h2⟩ := Prod.mk.injEq _ _ _ _ ▸ Except.ok.inj h
      rw [← h2]
      exact ⟨rfl, rfl⟩
  | Unsupported =>
    intro b acc2 h
    simp only [_maybe_compose] at h
    obtain ⟨-, h2⟩ := Prod.mk.injEq _ _ _ _ ▸ Except.ok.inj h
    rw [← h2]
    exact ⟨rfl, rfl⟩

/-- List version of `maybe_compose_preserves_grid` for the children of a
`Composed` node. -/
theorem maybe_compose_all_preserves_grid (acc : Accountant)
    (events : List DpEvent) (count : ℕ) (dc : Bool) :
    ∀ b acc2, _maybe_compose_all acc events count dc = .ok (b, acc2) →
      acc2.orders = acc.orders ∧
      acc2.neighboring_relation = acc.neighboring_relation := by
  cases events with
  | nil =>
    intro b acc2 h
    simp only [_maybe_compose_all] at h
    obtain ⟨-, h2⟩ := Prod.mk.injEq _ _ _ _ ▸ Except.ok.inj h
    rw [← h2]
    exact ⟨rfl, rfl⟩
  | cons e es =>
    intro b acc2 h
    simp only [_maybe_compose_all] at h
    cases hr : _maybe_compose acc e count dc with
    | error msg => rw [hr] at h; exact absurd h (by simp)
    | ok r =>
      rw [hr] at h
      simp only [except_bind_ok] at h
      have hgrid1 := maybe_compose_preserves_grid acc e count dc r.1 r.2
        (by rw [hr])
      cases hb : r.1 with
      | true =>
        rw [hb] at h
        simp only [if_true] at h
        have hgrid2 := maybe_compose_all_preserves_grid r.2 es count dc b acc2 h
        exact ⟨hgrid2.1.trans hgrid1.1, hgrid2.2.trans hgrid1.2⟩
      | false =>
        rw [hb] at h
        simp only [Bool.false_eq_true, if_false] at h
        obtain ⟨-, h2⟩ := Prod.mk.injEq _ _ _ _ ▸ Except.ok.inj h
        rw [← h2]
        exact hgrid1

end
